import Mathlib

/-!
Shallow embedding of `src/extractor.py` (sigecon-extractor).

Strings are modelled as `List Char` (`Str`).  Python floats are modelled as
rationals (`ℚ`): the money/total arithmetic of the program stays inside
exactly representable decimal values, and the claims under study are about
parsing and reconciliation policy, not binary rounding of doubles.
Python's builtin `float(...)` parser is modelled on finite decimal literals
(optional sign, digits, one optional dot, surrounding whitespace); the
special forms `inf`/`nan`/underscores/exponents are outside every input
shape the program's claims range over and are mapped to `none`.
Python's `\s` / `str.strip` whitespace class is modelled by `isPySpace`,
listing the Unicode whitespace code points Python recognises.
`str.upper` is modelled characterwise on ASCII and Latin-1 letters
(covering every character appearing in the program's alias tables).
-/

attribute [local semireducible] Rat.add Rat.sub Rat.mul Rat.inv Rat.ofScientific

abbrev Str := List Char

/-- Shorthand turning a Lean string literal into the `List Char` model. -/
def S (s : String) : Str := s.toList

/-- The whitespace class of Python's `\s` regex and `str.strip`/`float`. -/
def isPySpace (c : Char) : Bool :=
  c.toNat = 32 || c.toNat = 9 || c.toNat = 10 || c.toNat = 13 || c.toNat = 11 ||
  c.toNat = 12 || c.toNat = 28 || c.toNat = 29 || c.toNat = 30 || c.toNat = 31 ||
  c.toNat = 133 || c.toNat = 160 || c.toNat = 5760 ||
  (8192 ≤ c.toNat && c.toNat ≤ 8202) || c.toNat = 8232 || c.toNat = 8233 ||
  c.toNat = 8239 || c.toNat = 8287 || c.toNat = 12288

/-- `str.upper`, characterwise: ASCII `a`-`z` and the Latin-1 lowercase
letters (`à`-`þ` except `÷`) are mapped to their uppercase forms; every
other character is unchanged. -/
def pyUpperChar (c : Char) : Char :=
  if 'a' ≤ c && c ≤ 'z' then Char.ofNat (c.toNat - 32)
  else if 0xE0 ≤ c.toNat && c.toNat ≤ 0xFE && c.toNat ≠ 0xF7 then Char.ofNat (c.toNat - 32)
  else c

def pyUpper (l : Str) : Str := l.map pyUpperChar

/-- `s.replace("\xa0", " ")` (single-character replacement). -/
def mapNbsp (l : Str) : Str := l.map (fun c => if c = ' ' then ' ' else c)

/-- `SPACES_RX.sub(" ", s)` with `SPACES_RX = \s+`: every maximal whitespace
run collapses to a single `' '`.  The flag records whether the previous
character belonged to a run that has already emitted its space. -/
def collapseAux : Bool → Str → Str
  | _, [] => []
  | prevWs, c :: cs =>
    if isPySpace c then
      if prevWs then collapseAux true cs else ' ' :: collapseAux true cs
    else c :: collapseAux false cs

def collapseSpaces (l : Str) : Str := collapseAux false l

/-- Leading-whitespace removal half of `str.strip()`. -/
def lstripWs (l : Str) : Str := l.dropWhile isPySpace

/-- Trailing-whitespace removal half of `str.strip()`. -/
def rstripWs : Str → Str
  | [] => []
  | c :: cs =>
    match rstripWs cs with
    | [] => if isPySpace c then [] else [c]
    | r => c :: r

def pyStrip (l : Str) : Str := rstripWs (lstripWs l)

/-- `INCH_VARIANTS` replacement loop: each of `"`, `”`, `“`, `″` becomes
the straight quote `"`. -/
def mapQuoteVariant (c : Char) : Char :=
  if c = '"' || c = '”' || c = '“' || c = '″' then '"' else c

/-- `re.sub(r"\s+\"", "\"", text)`: a whitespace run immediately followed
by `"` is deleted (the run and the quote together are replaced by the
quote alone); runs not followed by a quote are kept.  `pend` holds the
whitespace run read so far, in reverse. -/
def ssqAux (pend : Str) : Str → Str
  | [] => pend.reverse
  | c :: cs =>
    if isPySpace c then ssqAux (c :: pend) cs
    else if c = '"' then '"' :: ssqAux [] cs
    else pend.reverse ++ c :: ssqAux [] cs

def subSpaceQuote (l : Str) : Str := ssqAux [] l

/-- `re.sub(r"(\d+(?:[\.,]\d+)?(?:/\d+(?:[\.,]\d+)?)?)\"", r"\1″", text)`:
the capture group is emitted unchanged, so the substitution rewrites a
`"` to `″` exactly when the character immediately before it is a digit
(every alternative of the group ends in `\d+`, and a lone digit before the
quote already yields a match; the fraction parts only extend the matched
region and never change which quotes are rewritten). -/
def inchDigitAux : Option Char → Str → Str
  | _, [] => []
  | prev, c :: cs =>
    (if c = '"' && (match prev with | some p => p.isDigit | none => false)
     then '″' else c) :: inchDigitAux (some c) cs

/-- final `text.replace('"', INCH_GLYPH)`. -/
def mapAllQuote (l : Str) : Str := l.map (fun c => if c = '"' then '″' else c)

/-- `normalize_inches` from the source. -/
def normalize_inches (t : Str) : Str :=
  if t = [] then t
  else mapAllQuote (inchDigitAux none (subSpaceQuote (t.map mapQuoteVariant)))

/-- `normalize_text` on a present (non-`None`) string. -/
def normalizeTextStr (s : Str) : Str :=
  normalize_inches (pyStrip (collapseSpaces (mapNbsp s)))

/-- `normalize_text` including the `None → ""` case. -/
def normalize_text : Option Str → Str
  | none => []
  | some s => normalizeTextStr s

example : normalizeTextStr (S "  a  b  ") = S "a b" := by decide
example : normalizeTextStr (S "TUBO 1 \" x 2") = S "TUBO 1″ x 2" := by decide
example : normalizeTextStr (S "ab “x” 5\"") = S "ab″x″ 5″" := by decide

/-- Value of a digit string read in base 10 (used by the models of
Python's `int(...)` and `float(...)` on already-validated digit runs). -/
def digitsToNat (l : Str) : Nat := l.foldl (fun acc c => acc * 10 + (c.toNat - '0'.toNat)) 0

/-- `CURRENCY_RX.sub("", s)` with `CURRENCY_RX = R\$\s*`: every occurrence
of `R$` together with the whitespace run right after it is removed,
scanning left to right.  The flag is true while skipping that run. -/
def scAux : Bool → Str → Str
  | _, [] => []
  | skip, [c] => if skip && isPySpace c then [] else [c]
  | skip, c :: c2 :: cs =>
    if skip && isPySpace c then scAux true (c2 :: cs)
    else if c = 'R' && c2 = '$' then scAux true cs
    else c :: scAux false (c2 :: cs)

def stripCurrency (l : Str) : Str := scAux false l

/-- Model of Python's builtin `float(...)` on finite decimal literals:
surrounding whitespace, an optional sign, then digits with at most one
dot (at least one digit overall).  Everything else is `none`. -/
def pyFloatBody (l : Str) : Option ℚ :=
  match l.dropWhile Char.isDigit with
  | [] =>
    if (l.takeWhile Char.isDigit).isEmpty then none
    else some (digitsToNat (l.takeWhile Char.isDigit))
  | '.' :: b =>
    if b.all Char.isDigit && (!(l.takeWhile Char.isDigit).isEmpty || !b.isEmpty)
    then some ((digitsToNat (l.takeWhile Char.isDigit) : ℚ) + (digitsToNat b : ℚ) / 10 ^ b.length)
    else none
  | _ => none

def pyFloat (s : Str) : Option ℚ :=
  match pyStrip s with
  | '-' :: r => (pyFloatBody r).map (fun q => -q)
  | '+' :: r => pyFloatBody r
  | r => pyFloatBody r

/-- `parse_money` from the source. -/
def parse_money (s : Str) : Option ℚ :=
  if s.isEmpty then none
  else if pyUpper (normalizeTextStr s) = S "R$" then none
  else pyFloat ((stripCurrency (normalizeTextStr s)).filter (fun c => c ≠ '.') |>.map
    (fun c => if c = ',' then '.' else c))

example : parse_money (S "R$ 2.277,92") = some (2277 + 92/100) := by decide
example : parse_money (S "49.52") = some 4952 := by decide
example : parse_money (S "1,5") = some (3/2) := by decide
example : parse_money (S "R$") = none := by decide
example : parse_money (S "") = none := by decide
example : parse_money (S "VALOR TOTAL 12345.67") = none := by decide

/-- `parse_int` from the source: `INT_RX = ^\d{1,4}$`, then `int(s)`. -/
def parse_int (s : Str) : Option Nat :=
  if 1 ≤ (normalizeTextStr s).length && (normalizeTextStr s).length ≤ 4 &&
      (normalizeTextStr s).all Char.isDigit
  then some (digitsToNat (normalizeTextStr s)) else none

example : parse_int (S " 12 ") = some 12 := by decide
example : parse_int (S "7.0") = none := by decide
example : parse_int (S "12345") = none := by decide

/-- Substring containment (`pat in text` on Python strings): `leadsWith p l`
says `p` is an initial segment of `l`. -/
def leadsWith : Str → Str → Bool
  | [], _ => true
  | _ :: _, [] => false
  | p :: ps, c :: cs => p = c && leadsWith ps cs

def hasSub (p : Str) : Str → Bool
  | [] => leadsWith p []
  | c :: cs => leadsWith p (c :: cs) || hasSub p cs

example : hasSub (S "LOR T") (S "VALOR TOTAL") = true := by decide
example : hasSub (S "XY") (S "VALOR TOTAL") = false := by decide

/-- `" ".join(parts)`. -/
def joinSpace : List Str → Str
  | [] => []
  | [p] => p
  | p :: ps => p ++ ' ' :: joinSpace ps

/-- `looks_like_total_row` from the source. -/
def looks_like_total_row (row : List Str) : Bool :=
  hasSub (S "VALOR TOTAL") (joinSpace (row.map (fun c => pyUpper (normalizeTextStr c)))) &&
  (parse_money (joinSpace (row.map (fun c => pyUpper (normalizeTextStr c))))).isSome

example : looks_like_total_row [S "", S "VALOR TOTAL R$ 12.345,67"] = false := by decide

/-- `CANON_KEYS` from the source. -/
def CANON_KEYS : List Str :=
  [S "ITEM", S "DESCRIÇÃO", S "UNID.", S "QUANT.", S "VALOR UNIT.", S "VALOR TOTAL"]

/-- `HEADER_ALIASES` from the source (a Python dict; the sets are used only
through `any`, so list order is irrelevant). -/
def HEADER_ALIASES (k : Str) : List Str :=
  if k = S "ITEM" then [S "ITEM", S "ITEN", S "ITENS"]
  else if k = S "DESCRIÇÃO" then
    [S "DESCRIÇÃO", S "DESCRICAO", S "DESCRIÇÃO/ESPECIFICAÇÃO", S "DESCRIÇÃO DO ITEM"]
  else if k = S "UNID." then [S "UNID.", S "UNIDADE", S "UND", S "UNID"]
  else if k = S "QUANT." then [S "QUANT.", S "QTD", S "QUANTIDADE"]
  else if k = S "VALOR UNIT." then
    [S "VALOR UNIT.", S "VALOR UNITARIO", S "VALOR UNITÁRIO", S "VLR UNIT.",
     S "PREÇO UNIT.", S "PREÇO UNIT"]
  else if k = S "VALOR TOTAL" then
    [S "VALOR TOTAL", S "VLR TOTAL", S "TOTAL", S "PREÇO TOTAL"]
  else []

/-- `_header_match_score`: 1 when the cell's normalized upper-cased text
contains some alias of the key, else 0 — used here as its boolean. -/
def headerMatch (cell : Str) (key : Str) : Bool :=
  (HEADER_ALIASES key).any (fun a => hasSub a (pyUpper (normalizeTextStr cell)))

/-- The per-row score of `detect_header_and_map`: the number of canonical
keys matched by some cell of the row. -/
def headerScore (row : List Str) : Nat :=
  (CANON_KEYS.filter (fun k => row.any (fun c => headerMatch c k))).length

example : headerScore [S "ITEM", S "DESCRIÇÃO", S "UNID.", S "QUANT.",
  S "VALOR UNIT.", S "VALOR TOTAL"] = 6 := by decide
example : headerScore [S "item", S "descrição do item"] = 2 := by decide

/-- The errors `extract_table_from_pdf` can raise (`ValueError` in the
source; the spec calls them HeaderNotFound and ColumnMappingIncomplete). -/
inductive ExtractErr where
  | headerNotFound
  | columnMappingIncomplete (missing : List Str)
deriving DecidableEq, Repr

/-- `col_map` once complete: the column index of each canonical key. -/
structure ColMap where
  item : Nat
  desc : Nat
  unid : Nat
  quant : Nat
  vu : Nat
  vt : Nat
deriving DecidableEq, Repr

/-- `_find_col_index`: first column whose normalized upper-cased text
contains one of the key's aliases. -/
def findColIndex (headerRow : List Str) (key : Str) : Option Nat :=
  headerRow.findIdx? (fun cell =>
    (HEADER_ALIASES key).any (fun a => hasSub a (pyUpper (normalizeTextStr cell))))

/-- The scoring loop of `detect_header_and_map`: `i` is the index of the
next row, `bi`/`bs` are `best_idx = -1` / `best_score = -1`, updated on
`score > best_score`. -/
def bestHeaderAux : Nat → Int → Int → List (List Str) → Int × Int
  | _, bi, bs, [] => (bi, bs)
  | i, bi, bs, r :: rs =>
    if bs < (headerScore r : Int) then bestHeaderAux (i + 1) i (headerScore r) rs
    else bestHeaderAux (i + 1) bi bs rs

/-- Column-mapping phase of `detect_header_and_map`: map all six
canonical columns of the selected header row, failing with the list of
unmapped keys otherwise. -/
def mapColumns (rows : List (List Str)) (bi : Int) : Except ExtractErr (Nat × ColMap) :=
  match findColIndex (rows.getD bi.toNat []) (S "ITEM"),
        findColIndex (rows.getD bi.toNat []) (S "DESCRIÇÃO"),
        findColIndex (rows.getD bi.toNat []) (S "UNID."),
        findColIndex (rows.getD bi.toNat []) (S "QUANT."),
        findColIndex (rows.getD bi.toNat []) (S "VALOR UNIT."),
        findColIndex (rows.getD bi.toNat []) (S "VALOR TOTAL") with
  | some a, some b, some c, some d, some e, some f => .ok (bi.toNat, ⟨a, b, c, d, e, f⟩)
  | _, _, _, _, _, _ =>
    .error (.columnMappingIncomplete
      (CANON_KEYS.filter (fun k => (findColIndex (rows.getD bi.toNat []) k).isNone)))

/-- `detect_header_and_map` from the source: pick the best-scoring row,
fail when `best_idx < 0 or best_score < 4`, then map the columns. -/
def detect_header_and_map (rows : List (List Str)) : Except ExtractErr (Nat × ColMap) :=
  if (bestHeaderAux 0 (-1) (-1) rows).1 < 0 || (bestHeaderAux 0 (-1) (-1) rows).2 < 4
  then .error .headerNotFound
  else mapColumns rows (bestHeaderAux 0 (-1) (-1) rows).1

example : detect_header_and_map [[S "ITEM", S "DESCRIÇÃO", S "UNID.", S "QUANT.",
  S "VALOR UNIT.", S "VALOR TOTAL"]] = .ok (0, ⟨0, 1, 2, 3, 4, 5⟩) := rfl
example : detect_header_and_map [[S "x"]] = .error .headerNotFound := rfl

/-- Characters accepted by `[\d\.\,]` in the trailing-amount regexes. -/
def isMoneyChar (c : Char) : Bool := c.isDigit || c = '.' || c = ','

/-- Case-insensitive literal matcher on a reversed string: `p` is the
pattern, reversed and uppercase; returns the remainder on success. -/
def dropLit : Str → Str → Option Str
  | [], l => some l
  | _ :: _, [] => none
  | p :: ps, c :: cs => if pyUpperChar c = p then dropLit ps cs else none

/-- Anchored tail `[\d\.\,]+$` on a reversed string: the (maximal,
nonempty) run of money characters, returning the remainder. -/
def matchMoneyTail (rl : Str) : Option Str :=
  if (rl.takeWhile isMoneyChar).isEmpty then none else some (rl.dropWhile isMoneyChar)

/-- `VALOR_PRECO_TRAILING_RX = (R\$\s*[\d\.\,]+)$` (ignorecase), matched on
the reversed string. -/
def matchMoneySuffix (rl : Str) : Option Str :=
  (matchMoneyTail rl).bind fun r1 => dropLit (S "$R") (r1.dropWhile isPySpace)

/-- `VALOR_TOTAL_SUFFIX_RX = (VALOR\s+TOTAL\s*R\$\s*[\d\.\,]+)$`
(ignorecase), matched on the reversed string; the `\s+` between the two
words must consume at least one character. -/
def matchValorTotalSuffix (rl : Str) : Option Str :=
  (matchMoneySuffix rl).bind fun r3 =>
  (dropLit (S "LATOT") (r3.dropWhile isPySpace)).bind fun r5 =>
  let r6 := r5.dropWhile isPySpace
  if r6.length < r5.length then dropLit (S "ROLAV") r6 else none

/-- `strip_valor_total_from_desc` from the source: delete an anchored
`VALOR TOTAL R$ <amount>` suffix and strip, then delete a bare trailing
`R$ <amount>` and strip.  The regex matches are modelled by deterministic
suffix parsing of the reversed string: both patterns are anchored at the
end and each component (`greedy [\d.,]+`, `\s*`/`\s+`, the literals) is
uniquely determined from the right, so the leftmost regex match region
coincides with this parse. -/
def strip_valor_total_from_desc (t : Str) : Str :=
  if t = [] then t
  else
    let t1 := match matchValorTotalSuffix t.reverse with
      | some r => r.reverse
      | none => t
    let u := pyStrip t1
    let u1 := match matchMoneySuffix u.reverse with
      | some r => r.reverse
      | none => u
    pyStrip u1

example : strip_valor_total_from_desc (S "PARAFUSO 8mm VALOR TOTAL R$ 12.345,67") =
  S "PARAFUSO 8mm" := by decide
example : strip_valor_total_from_desc (S "PARAFUSO 8mm R$ 4,00") = S "PARAFUSO 8mm" := by decide
example : strip_valor_total_from_desc (S "VALOR TOTAL R$ 12.345,67") = S "" := by decide
example : strip_valor_total_from_desc (S "PARAFUSO 8mm") = S "PARAFUSO 8mm" := by decide

/-- `ItemRecord`: the dict produced by `parse_row_with_map`. -/
structure Rec where
  item : Option Nat
  descricao : Str
  unid : Str
  quant : Option Nat
  valor_unit : Option ℚ
  valor_total : Option ℚ
deriving DecidableEq, Repr

/-- Python `str.rstrip(chars)`. -/
def rstripChars (bad : List Char) (l : Str) : Str :=
  (l.reverse.dropWhile (fun c => bad.contains c)).reverse

/-- The row accessor of `parse_row_with_map`:
`normalize_text(row[idx]) if idx < len(row) else ""`. -/
def getMapped (row : List Str) (idx : Nat) : Str :=
  if idx < row.length then normalizeTextStr (row.getD idx []) else []

/-- `parse_row_with_map` from the source. -/
def parse_row_with_map (row : List Str) (cm : ColMap) : Rec :=
  { item := parse_int (getMapped row cm.item)
  , descricao := strip_valor_total_from_desc (getMapped row cm.desc)
  , unid := rstripChars ['.', ','] (pyUpper (normalizeTextStr (getMapped row cm.unid)))
  , quant := parse_int (getMapped row cm.quant)
  , valor_unit := parse_money (getMapped row cm.vu)
  , valor_total := parse_money (getMapped row cm.vt) }

/-- Python's `round(x)` (banker's rounding, half to even) on an exact
rational: ties go to the even integer, otherwise to the nearest. -/
def roundHE (q : ℚ) : ℤ :=
  if q - (⌊q⌋ : ℚ) = mkRat 1 2 then (if Even ⌊q⌋ then ⌊q⌋ else ⌊q⌋ + 1) else round q

/-- `round(x, 2)` on an exact rational. -/
def round2 (q : ℚ) : ℚ := mkRat (roundHE (q * 100)) 100

example : round2 (mkRat 25 1000) = mkRat 2 100 := by decide
example : round2 (mkRat 35 1000) = mkRat 4 100 := by decide
example : roundHE (mkRat (-25) 10) = -2 := by decide

/-- `validate_and_fix` from the source, with `0.05` as the exact `1/20`. -/
def validate_and_fix (rec : Rec) : Rec :=
  match rec.valor_unit, rec.quant with
  | some vu, some qt =>
    let cv := round2 (vu * (qt : ℚ))
    (match rec.valor_total with
     | none => { rec with valor_total := some cv }
     | some vt =>
       if |cv - vt| ≤ mkRat 1 20 then { rec with valor_total := some cv } else rec)
  | _, _ => rec

/-- `UNIT_SET` from the source. -/
def UNIT_SET : List Str :=
  [S "UN", S "CJ", S "UM", S "M", S "BAR", S "TUB", S "CX", S "KIT", S "PAR", S "PÇ",
   S "PC", S "JG", S "KG", S "LT", S "L", S "G", S "MM", S "CM", S "MT", S "ROL",
   S "SAC", S "FD", S "SC", S "TB", S "BL", S "CONJ"]

/-- The row snapshot embedded in every issue dict. -/
structure Snap where
  descricao : Str
  unid : Str
  quant : Option Nat
  valor_unit : Option ℚ
  valor_total : Option ℚ
deriving DecidableEq, Repr

def snapOf (r : Rec) : Snap := ⟨r.descricao, r.unid, r.quant, r.valor_unit, r.valor_total⟩

/-- The issue dicts of the source: the top-level `{"error": ...}` dict,
`build_issues`' missing-fields dict, and its unexpected-unit warning. -/
inductive Issue where
  | errorIssue (msg : Str)
  | missingIssue (item : Option Nat) (missing : List Str) (row : Snap)
  | warningIssue (item : Option Nat) (warning : Str) (row : Snap)
deriving DecidableEq, Repr

/-- The `v in (None, "")` scan of `build_issues`, in key order. -/
def missingKeys (r : Rec) : List Str :=
  (if r.item = none then [S "item"] else []) ++
  (if r.descricao = [] then [S "descricao"] else []) ++
  (if r.unid = [] then [S "unid"] else []) ++
  (if r.quant = none then [S "quant"] else []) ++
  (if r.valor_unit = none then [S "valor_unit"] else []) ++
  (if r.valor_total = none then [S "valor_total"] else [])

/-- `build_issues` from the source. -/
def build_issues (r : Rec) : Option Issue :=
  let missing := missingKeys r
  if missing.isEmpty then
    let unid := pyUpper r.unid
    if !unid.isEmpty && !(UNIT_SET.contains unid) then
      some (.warningIssue r.item
        (S "Unidade " ++ '\'' :: (unid ++ '\'' :: S " fora da lista conhecida")) (snapOf r))
    else none
  else some (.missingIssue r.item missing (snapOf r))

/-- The record re-built at the end of the main loop (lines 284-291):
`descricao or ""` is the identity on strings, `unid` is upper-cased and
right-stripped once more, the other fields are copied. -/
def finalizeRec (r : Rec) : Rec :=
  { r with unid := rstripChars ['.', ','] (pyUpper r.unid) }

/-- `max(col_map.values())`. -/
def maxColIdx (cm : ColMap) : Nat :=
  max cm.item (max cm.desc (max cm.unid (max cm.quant (max cm.vu cm.vt))))

/-- The `safe_row` padding of the main loop. -/
def padRow (row : List Str) (cm : ColMap) : List Str :=
  if row.length ≤ maxColIdx cm then row ++ List.replicate (maxColIdx cm + 1 - row.length) []
  else row

/-- The data-row consumption loop: skip rows whose cells all normalize to
empty, stop (dropping the row) at the first grand-total row. -/
def collectData : List (List Str) → List (List Str)
  | [] => []
  | r :: rs =>
    if r.all (fun c => (normalizeTextStr c).isEmpty) then collectData rs
    else if looks_like_total_row r then []
    else r :: collectData rs

/-- The Python sort key `(item if item is not None else 10**9,)`. -/
def sortKey (r : Rec) : Nat :=
  match r.item with
  | some n => n
  | none => 10 ^ 9

/-- The comparison underlying the Python sort key. -/
def sortLE (a b : Rec) : Prop := sortKey a ≤ sortKey b

instance : DecidableRel sortLE := fun a b => Nat.decLe (sortKey a) (sortKey b)

instance : IsTotal Rec sortLE := ⟨fun a b => Nat.le_total (sortKey a) (sortKey b)⟩

instance : IsTrans Rec sortLE := ⟨fun _ _ _ => Nat.le_trans⟩

/-- `records.sort(key=...)`: Python's sort is exactly the stable
ascending sort by key; it is modelled by insertion sort, whose
sortedness, permutation and stability properties are proved below and
characterize the Python sort uniquely. -/
def sortRecords (l : List Rec) : List Rec := l.insertionSort sortLE

def processRow (cm : ColMap) (row : List Str) : Rec :=
  validate_and_fix (parse_row_with_map (padRow row cm) cm)

def pipelineRecords (drows : List (List Str)) (cm : ColMap) : List Rec :=
  drows.map (fun r => finalizeRec (processRow cm r))

def pipelineIssues (drows : List (List Str)) (cm : ColMap) : List Issue :=
  drows.filterMap (fun r => build_issues (processRow cm r))

structure ExtractResult where
  rows : List Rec
  issues : List Issue
deriving DecidableEq, Repr

def NO_TABLE_MSG : Str := S "Nenhuma tabela encontrada no PDF."

/-- `normalize_text` applied to one raw cell (`None` cells become `""`). -/
def normalizeCellOpt : Option Str → Str
  | none => []
  | some s => normalizeTextStr s

/-- Lines 233-247 of the source: normalize every cell of every raw row and
keep the rows with at least one nonempty cell.  The raw rows are what the
external table detector (pdfplumber) produced; a `None` row behaves like
the empty row it is replaced by (`raw_row or []`). -/
def allRowsOf (raws : List (List (Option Str))) : List (List Str) :=
  (raws.map (fun raw => raw.map normalizeCellOpt)).filter
    (fun row => row.any (fun cell => !cell.isEmpty))

/-- `extract_table_from_pdf` from the source, starting from the raw cell
rows the external PDF table detector produced. -/
def extract_table (raws : List (List (Option Str))) : Except ExtractErr ExtractResult :=
  if (allRowsOf raws).isEmpty then .ok ⟨[], [.errorIssue NO_TABLE_MSG]⟩
  else
    match detect_header_and_map (allRowsOf raws) with
    | .error e => .error e
    | .ok (hidx, cm) =>
      .ok ⟨sortRecords (pipelineRecords (collectData ((allRowsOf raws).drop (hidx + 1))) cm),
           pipelineIssues (collectData ((allRowsOf raws).drop (hidx + 1))) cm⟩

example : extract_table [] = .ok ⟨[], [.errorIssue NO_TABLE_MSG]⟩ := rfl
example : extract_table [[some (S " "), none]] = .ok ⟨[], [.errorIssue NO_TABLE_MSG]⟩ := rfl

/-! ## Frame lemmas for `validate_and_fix` -/

lemma validate_frame (r : Rec) :
    (validate_and_fix r).item = r.item ∧
    (validate_and_fix r).descricao = r.descricao ∧
    (validate_and_fix r).unid = r.unid ∧
    (validate_and_fix r).quant = r.quant ∧
    (validate_and_fix r).valor_unit = r.valor_unit := by
  rcases r with ⟨i, d, u, q, vu, vt⟩
  cases vu <;> cases q <;> cases vt <;> simp [validate_and_fix] <;> split <;> simp

lemma validate_skip (r : Rec) (h : r.valor_unit = none ∨ r.quant = none) :
    validate_and_fix r = r := by
  rcases r with ⟨i, d, u, q, vu, vt⟩
  rcases h with h | h <;> simp_all [validate_and_fix]

/-- C10: `validate_and_fix` modifies at most `valor_total`: every other
field is unchanged, and when `valor_unit` or `quant` is null the record is
returned entirely unchanged. -/
theorem C10_validate_frame (r : Rec) :
    (validate_and_fix r).item = r.item ∧
    (validate_and_fix r).descricao = r.descricao ∧
    (validate_and_fix r).unid = r.unid ∧
    (validate_and_fix r).quant = r.quant ∧
    (validate_and_fix r).valor_unit = r.valor_unit ∧
    ((r.valor_unit = none ∨ r.quant = none) → validate_and_fix r = r) := by
  obtain ⟨h1, h2, h3, h4, h5⟩ := validate_frame r
  exact ⟨h1, h2, h3, h4, h5, validate_skip r⟩

/-- Witness for C10 at a concrete record with null `valor_unit`. -/
theorem C10_validate_frame_witness :
    validate_and_fix ⟨some 1, S "X", S "UN", some 2, none, some (mkRat 4 1)⟩ =
      ⟨some 1, S "X", S "UN", some 2, none, some (mkRat 4 1)⟩ :=
  (C10_validate_frame ⟨some 1, S "X", S "UN", some 2, none, some (mkRat 4 1)⟩).2.2.2.2.2
    (Or.inl rfl)

/-- C4: when both `valor_unit` and `quant` are non-null, the candidate is
`round(vu*qt, 2)` and it replaces `valor_total` exactly when the latter is
null or within `0.05` (`1/20`) of the candidate; otherwise, and when
`valor_unit` or `quant` is null, the record keeps its extracted value. -/
theorem C4_validate_tolerant (rec : Rec) :
    (∀ vu qt, rec.valor_unit = some vu → rec.quant = some qt →
      (rec.valor_total = none →
        validate_and_fix rec = { rec with valor_total := some (round2 (vu * (qt : ℚ))) }) ∧
      (∀ vt, rec.valor_total = some vt → |round2 (vu * (qt : ℚ)) - vt| ≤ mkRat 1 20 →
        validate_and_fix rec = { rec with valor_total := some (round2 (vu * (qt : ℚ))) }) ∧
      (∀ vt, rec.valor_total = some vt → ¬(|round2 (vu * (qt : ℚ)) - vt| ≤ mkRat 1 20) →
        validate_and_fix rec = rec)) ∧
    ((rec.valor_unit = none ∨ rec.quant = none) → validate_and_fix rec = rec) := by
  refine ⟨?_, validate_skip rec⟩
  intro vu qt hu hq
  refine ⟨?_, ?_, ?_⟩
  · intro hvt
    simp [validate_and_fix, hu, hq, hvt]
  · intro vt hvt hle
    simp [validate_and_fix, hu, hq, hvt, hle]
  · intro vt hvt hle
    simp [validate_and_fix, hu, hq, hvt, hle]

/-- Witness for C4: `unit_price = 10`, `quantity = 3`, extracted total `30`
is within tolerance, so the candidate `30.00` is written back. -/
theorem C4_validate_tolerant_witness :
    validate_and_fix ⟨some 1, S "X", S "UN", some 3, some (mkRat 10 1), some (mkRat 30 1)⟩ =
      { item := some 1, descricao := S "X", unid := S "UN", quant := some 3,
        valor_unit := some (mkRat 10 1),
        valor_total := some (round2 (mkRat 10 1 * ((3 : Nat) : ℚ))) } :=
  ((C4_validate_tolerant _).1 (mkRat 10 1) 3 rfl rfl).2.1 (mkRat 30 1) rfl (by decide)

/-- C9: an input yielding no usable rows at all produces
`{"rows": [], "issues": [{"error": <message>}]}` instead of an error. -/
theorem C9_empty_input (raws : List (List (Option Str))) (h : allRowsOf raws = []) :
    extract_table raws = .ok ⟨[], [.errorIssue NO_TABLE_MSG]⟩ := by
  simp [extract_table, h]

/-- Witness for C9 at the empty input. -/
theorem C9_empty_input_witness :
    extract_table [] = .ok ⟨[], [.errorIssue NO_TABLE_MSG]⟩ :=
  C9_empty_input [] rfl

/-! ## Character-survival lemmas

A character that is not whitespace and not a quote variant is never
erased or altered by normalization; one that is moreover not `R`, `$`,
`.` or `,` also survives the `parse_money` transformations.  These feed
the analysis of `looks_like_total_row`. -/

lemma mem_mapNbsp {c : Char} {l : Str} (h : isPySpace c = false) (hm : c ∈ l) :
    c ∈ mapNbsp l := by
  have hne : c ≠ '\u00A0' := by rintro rfl; exact absurd h (by decide)
  unfold mapNbsp
  refine List.mem_map.2 ⟨c, hm, ?_⟩
  exact if_neg hne

lemma mem_collapseAux {c : Char} (h : isPySpace c = false) :
    ∀ {l : Str} (b : Bool), c ∈ l → c ∈ collapseAux b l := by
  intro l
  induction l with
  | nil => intro b hm; cases hm
  | cons x xs ih =>
    intro b hm
    rcases List.mem_cons.1 hm with rfl | hm'
    · simp [collapseAux, h]
    · by_cases hx : isPySpace x = true
      · rw [collapseAux, if_pos hx]
        cases b
        · exact List.mem_cons_of_mem _ (ih true hm')
        · exact ih true hm'
      · rw [collapseAux, if_neg hx]
        exact List.mem_cons_of_mem _ (ih false hm')

lemma mem_lstripWs {c : Char} (h : isPySpace c = false) :
    ∀ {l : Str}, c ∈ l → c ∈ lstripWs l := by
  intro l
  induction l with
  | nil => intro hm; cases hm
  | cons x xs ih =>
    intro hm
    by_cases hx : isPySpace x = true
    · rcases List.mem_cons.1 hm with rfl | hm'
      · exact absurd hx (by simp [h])
      · simpa [lstripWs, List.dropWhile_cons, hx] using ih hm'
    · simpa [lstripWs, List.dropWhile_cons, hx] using hm

lemma rstripWs_nil_all : ∀ {l : Str}, rstripWs l = [] → ∀ c ∈ l, isPySpace c = true := by
  intro l
  induction l with
  | nil => intro h c hc; cases hc
  | cons x xs ih =>
    intro h c hc
    rcases hr : rstripWs xs with _ | ⟨y, ys⟩
    · simp only [rstripWs, hr] at h
      split_ifs at h with hx
      · rcases List.mem_cons.1 hc with rfl | hc'
        · exact hx
        · exact ih hr c hc'
    · simp only [rstripWs, hr] at h
      exact absurd h (List.cons_ne_nil _ _)

lemma mem_rstripWs {c : Char} (h : isPySpace c = false) :
    ∀ {l : Str}, c ∈ l → c ∈ rstripWs l := by
  intro l
  induction l with
  | nil => intro hm; cases hm
  | cons x xs ih =>
    intro hm
    rcases List.mem_cons.1 hm with rfl | hm'
    · rcases hr : rstripWs xs with _ | ⟨y, ys⟩
      · simp [rstripWs, hr, h]
      · simp only [rstripWs, hr]
        exact List.mem_cons_self _ _
    · have hx := ih hm'
      rcases hr : rstripWs xs with _ | ⟨y, ys⟩
      · rw [hr] at hx; cases hx
      · simp only [rstripWs, hr]
        rw [hr] at hx
        exact List.mem_cons_of_mem _ hx

lemma mem_pyStrip {c : Char} {l : Str} (h : isPySpace c = false) (hm : c ∈ l) :
    c ∈ pyStrip l :=
  mem_rstripWs h (mem_lstripWs h hm)

lemma mem_mapQuoteVariant {c : Char} {l : Str}
    (h : mapQuoteVariant c = c) (hm : c ∈ l) : c ∈ l.map mapQuoteVariant := by
  have h2 : mapQuoteVariant c ∈ l.map mapQuoteVariant := List.mem_map_of_mem _ hm
  rwa [h] at h2

lemma mem_ssqAux {c : Char} (hs : isPySpace c = false) (hq : c ≠ '"') :
    ∀ {l : Str} (pend : Str), c ∈ l → c ∈ ssqAux pend l := by
  intro l
  induction l with
  | nil => intro pend hm; cases hm
  | cons x xs ih =>
    intro pend hm
    by_cases hx : isPySpace x = true
    · rw [ssqAux, if_pos hx]
      rcases List.mem_cons.1 hm with rfl | hm'
      · exact absurd hx (by simp [hs])
      · exact ih (x :: pend) hm'
    · rw [ssqAux, if_neg hx]
      by_cases hx2 : x = '"'
      · rw [if_pos hx2]
        rcases List.mem_cons.1 hm with rfl | hm'
        · exact absurd hx2 hq
        · exact List.mem_cons_of_mem _ (ih [] hm')
      · rw [if_neg hx2]
        rcases List.mem_cons.1 hm with rfl | hm'
        · exact List.mem_append_right _ (List.mem_cons_self _ _)
        · exact List.mem_append_right _ (List.mem_cons_of_mem _ (ih [] hm'))

lemma mem_inchDigitAux {c : Char} (hq : c ≠ '"') :
    ∀ {l : Str} (p : Option Char), c ∈ l → c ∈ inchDigitAux p l := by
  intro l
  induction l with
  | nil => intro p hm; cases hm
  | cons x xs ih =>
    intro p hm
    rcases List.mem_cons.1 hm with rfl | hm'
    · simp [inchDigitAux, hq]
    · exact List.mem_cons_of_mem _ (ih (some x) hm')

lemma mem_mapAllQuote {c : Char} {l : Str} (hq : c ≠ '"') (hm : c ∈ l) :
    c ∈ mapAllQuote l := by
  unfold mapAllQuote
  have h2 : (if c = '"' then '″' else c) ∈ List.map (fun x => if x = '"' then '″' else x) l :=
    List.mem_map_of_mem _ hm
  rwa [if_neg hq] at h2

/-- A character that is not whitespace and not one of the four quote
variants survives `normalize_text`. -/
lemma mem_normalizeTextStr {c : Char} {l : Str} (hs : isPySpace c = false)
    (hv : mapQuoteVariant c = c) (hq : c ≠ '"') (hm : c ∈ l) :
    c ∈ normalizeTextStr l := by
  have h1 : c ∈ pyStrip (collapseSpaces (mapNbsp l)) :=
    mem_pyStrip hs (mem_collapseAux hs false (mem_mapNbsp hs hm))
  unfold normalizeTextStr normalize_inches
  split_ifs with h0
  · rw [h0] at h1; cases h1
  · exact mem_mapAllQuote hq (mem_inchDigitAux hq none
      (mem_ssqAux hs hq [] (mem_mapQuoteVariant hv h1)))

lemma mem_scAux {c : Char} (hs : isPySpace c = false) (hR : c ≠ 'R') (hD : c ≠ '$') :
    ∀ (skip : Bool) (l : Str), c ∈ l → c ∈ scAux skip l := by
  intro skip l
  induction skip, l using scAux.induct with
  | case1 b => intro hm; cases hm
  | case2 sk x hx =>
    intro hm
    simp only [Bool.and_eq_true] at hx
    rcases List.mem_cons.1 hm with rfl | hm'
    · exact absurd hx.2 (by simp [hs])
    · cases hm'
  | case3 sk x hx =>
    intro hm
    rw [scAux, if_neg hx]
    exact hm
  | case4 sk x y t hx ih =>
    intro hm
    rw [scAux, if_pos hx]
    simp only [Bool.and_eq_true] at hx
    rcases List.mem_cons.1 hm with rfl | hm'
    · exact absurd hx.2 (by simp [hs])
    · exact ih hm'
  | case5 sk x y t hx hxy ih =>
    intro hm
    rw [scAux, if_neg hx, if_pos hxy]
    simp only [Bool.and_eq_true, decide_eq_true_eq] at hxy
    rcases List.mem_cons.1 hm with rfl | hm'
    · exact absurd hxy.1 hR
    · rcases List.mem_cons.1 hm' with rfl | hm''
      · exact absurd hxy.2 hD
      · exact ih hm''
  | case6 sk x y t hx hxy ih =>
    intro hm
    rw [scAux, if_neg hx, if_neg hxy]
    rcases List.mem_cons.1 hm with rfl | hm'
    · exact List.mem_cons_self _ _
    · exact List.mem_cons_of_mem _ (ih hm')

/-! ## `looks_like_total_row` can never fire -/

lemma pyFloatBody_chars {l : Str} {q : ℚ} (h : pyFloatBody l = some q) :
    ∀ c ∈ l, c.isDigit = true ∨ c = '.' := by
  intro c hc
  unfold pyFloatBody at h
  split at h
  next hd =>
    left
    have hl : l = l.takeWhile Char.isDigit := by
      conv_lhs => rw [← List.takeWhile_append_dropWhile Char.isDigit l]
      rw [hd, List.append_nil]
    rw [hl] at hc
    exact List.mem_takeWhile_imp hc
  next b hd =>
    split_ifs at h with hcond
    simp only [Bool.and_eq_true] at hcond
    have hb := hcond.1
    have hl : l = l.takeWhile Char.isDigit ++ '.' :: b := by
      conv_lhs => rw [← List.takeWhile_append_dropWhile Char.isDigit l]
      rw [hd]
    rw [hl] at hc
    rcases List.mem_append.1 hc with h1 | h1
    · exact Or.inl (List.mem_takeWhile_imp h1)
    · rcases List.mem_cons.1 h1 with rfl | h2
      · exact Or.inr rfl
      · exact Or.inl (List.all_eq_true.1 hb c h2)
  next => exact absurd h (by simp)

lemma pyFloat_chars {s : Str} {q : ℚ} (h : pyFloat s = some q) :
    ∀ c ∈ pyStrip s, c.isDigit = true ∨ c = '.' ∨ c = '-' ∨ c = '+' := by
  intro c hc
  unfold pyFloat at h
  split at h
  next r heq =>
    rw [heq] at hc
    rcases List.mem_cons.1 hc with rfl | hc'
    · exact Or.inr (Or.inr (Or.inl rfl))
    · obtain ⟨q', hq', _⟩ := Option.map_eq_some'.1 h
      rcases pyFloatBody_chars hq' c hc' with h1 | h1
      · exact Or.inl h1
      · exact Or.inr (Or.inl h1)
  next r heq =>
    rw [heq] at hc
    rcases List.mem_cons.1 hc with rfl | hc'
    · exact Or.inr (Or.inr (Or.inr rfl))
    · rcases pyFloatBody_chars h c hc' with h1 | h1
      · exact Or.inl h1
      · exact Or.inr (Or.inl h1)
  next r heq1 heq2 =>
    rcases pyFloatBody_chars h c hc with h1 | h1
    · exact Or.inl h1
    · exact Or.inr (Or.inl h1)

/-- A character that survives normalization, currency-stripping and the
separator rewrites, and that cannot occur in a float literal, forces
`parse_money` to return `None`. -/
lemma parse_money_none_of_mem {c : Char} {s : Str}
    (hs : isPySpace c = false) (hv : mapQuoteVariant c = c) (hq : c ≠ '"')
    (hR : c ≠ 'R') (hD : c ≠ '$') (hdot : c ≠ '.') (hcomma : c ≠ ',')
    (hminus : c ≠ '-') (hplus : c ≠ '+') (hdig : c.isDigit = false)
    (hm : c ∈ s) : parse_money s = none := by
  unfold parse_money
  split_ifs with h0 h1
  · rfl
  · rfl
  · have m1 : c ∈ normalizeTextStr s := mem_normalizeTextStr hs hv hq hm
    have m2 : c ∈ stripCurrency (normalizeTextStr s) := mem_scAux hs hR hD false _ m1
    have m3 : c ∈ (stripCurrency (normalizeTextStr s)).filter (fun x => x ≠ '.') :=
      List.mem_filter.2 ⟨m2, by simp [hdot]⟩
    have m4 : c ∈ ((stripCurrency (normalizeTextStr s)).filter (fun x => x ≠ '.')).map
        (fun x => if x = ',' then '.' else x) := by
      refine List.mem_map.2 ⟨c, m3, ?_⟩
      exact if_neg hcomma
    cases hf : pyFloat (((stripCurrency (normalizeTextStr s)).filter (fun x => x ≠ '.')).map
        (fun x => if x = ',' then '.' else x)) with
    | none => rfl
    | some q =>
      exfalso
      rcases pyFloat_chars hf c (mem_pyStrip hs m4) with h2 | h2 | h2 | h2
      · rw [h2] at hdig; cases hdig
      · exact hdot h2
      · exact hminus h2
      · exact hplus h2

lemma hasSub_mem {p : Char} {ps : Str} : ∀ {l : Str}, hasSub (p :: ps) l = true → p ∈ l := by
  intro l
  induction l with
  | nil => intro h; simp [hasSub, leadsWith] at h
  | cons x xs ih =>
    intro h
    rw [hasSub] at h
    simp only [Bool.or_eq_true] at h
    rcases h with h | h
    · rw [leadsWith] at h
      simp only [Bool.and_eq_true, decide_eq_true_eq] at h
      exact h.1 ▸ List.mem_cons_self _ _
    · exact List.mem_cons_of_mem _ (ih h)

/-- The conjunction `"VALOR TOTAL" in joined and parse_money(joined)` is
unsatisfiable: the label's letters survive every `parse_money` transform,
so the `float()` call always fails.  Hence the totals-row detector never
fires, on any row whatsoever. -/
lemma looks_like_total_row_const_false (row : List Str) :
    looks_like_total_row row = false := by
  unfold looks_like_total_row
  cases hsub : hasSub (S "VALOR TOTAL")
      (joinSpace (row.map (fun c => pyUpper (normalizeTextStr c)))) with
  | false => simp [hsub]
  | true =>
    have hV : 'V' ∈ joinSpace (row.map (fun c => pyUpper (normalizeTextStr c))) :=
      @hasSub_mem 'V' (S "ALOR TOTAL") _ hsub
    have hpm : parse_money (joinSpace (row.map (fun c => pyUpper (normalizeTextStr c)))) = none :=
      parse_money_none_of_mem (by decide) (by decide) (by decide) (by decide) (by decide)
        (by decide) (by decide) (by decide) (by decide) (by decide) hV
    simp [hsub, hpm]

/-- A concrete document: canonical header, one line item, then the
grand-total line `VALOR TOTAL R$ 12.345,67`. -/
def c2raws : List (List (Option Str)) :=
  [ [some (S "ITEM"), some (S "DESCRIÇÃO"), some (S "UNID."), some (S "QUANT."),
     some (S "VALOR UNIT."), some (S "VALOR TOTAL")]
  , [some (S "1"), some (S "ABC"), some (S "UN"), some (S "2"), some (S "R$ 2,00"),
     some (S "R$ 4,00")]
  , [some (S ""), some (S "VALOR TOTAL R$ 12.345,67")] ]

/-- C2: the collector never stops at a grand-total row, because
`looks_like_total_row` is constantly false (its money-parse of the joined
text always fails on the label's letters).  On the concrete document the
totals row is consumed and shows up as a second, empty record in `rows`
instead of halting consumption. -/
theorem C2_total_row_never_stops :
    (∀ row, looks_like_total_row row = false) ∧
    extract_table c2raws = .ok
      ⟨[⟨some 1, S "ABC", S "UN", some 2, some (mkRat 2 1), some (mkRat 4 1)⟩,
        ⟨none, [], [], none, none, none⟩],
       [.missingIssue none
          [S "item", S "descricao", S "unid", S "quant", S "valor_unit", S "valor_total"]
          ⟨[], [], none, none, none⟩]⟩ :=
  ⟨looks_like_total_row_const_false, rfl⟩

/-! ## `parse_int`: exact characterization and bound -/

lemma digit_toNat_bounds {c : Char} (h : c.isDigit = true) :
    48 ≤ c.toNat ∧ c.toNat ≤ 57 := by
  simp [Char.isDigit, Char.le_def] at h
  obtain ⟨h1, h2⟩ := h
  exact ⟨h1, h2⟩

lemma digitsToNat_foldl_lt : ∀ (l : Str) (acc : Nat), l.all Char.isDigit = true →
    l.foldl (fun a c => a * 10 + (c.toNat - '0'.toNat)) acc < (acc + 1) * 10 ^ l.length := by
  intro l
  induction l with
  | nil => intro acc _; simpa using Nat.lt_succ_self acc
  | cons c cs ih =>
    intro acc h
    simp only [List.all_cons, Bool.and_eq_true] at h
    have hb := digit_toNat_bounds h.1
    have h48 : '0'.toNat = 48 := rfl
    have hstep : acc * 10 + (c.toNat - '0'.toNat) + 1 ≤ (acc + 1) * 10 := by omega
    have hih := ih (acc * 10 + (c.toNat - '0'.toNat)) h.2
    have h2 : (acc * 10 + (c.toNat - '0'.toNat) + 1) * 10 ^ cs.length ≤
        (acc + 1) * 10 ^ (cs.length + 1) := by
      calc (acc * 10 + (c.toNat - '0'.toNat) + 1) * 10 ^ cs.length
          ≤ ((acc + 1) * 10) * 10 ^ cs.length := Nat.mul_le_mul_right _ hstep
        _ = (acc + 1) * 10 ^ (cs.length + 1) := by ring
    simp only [List.foldl_cons, List.length_cons]
    exact lt_of_lt_of_le hih h2

lemma digitsToNat_lt {l : Str} (h : l.all Char.isDigit = true) :
    digitsToNat l < 10 ^ l.length := by
  have := digitsToNat_foldl_lt l 0 h
  simpa [digitsToNat] using this

lemma parse_int_some_iff {s : Str} {n : Nat} :
    parse_int s = some n ↔
      (1 ≤ (normalizeTextStr s).length ∧ (normalizeTextStr s).length ≤ 4 ∧
       (normalizeTextStr s).all Char.isDigit = true ∧ n = digitsToNat (normalizeTextStr s)) := by
  unfold parse_int
  split_ifs with h
  · simp only [Bool.and_eq_true, decide_eq_true_eq] at h
    constructor
    · intro he
      injection he with he
      exact ⟨h.1.1, h.1.2, h.2, he.symm⟩
    · rintro ⟨-, -, -, rfl⟩
      rfl
  · simp only [Bool.and_eq_true, decide_eq_true_eq, not_and] at h
    constructor
    · intro he; cases he
    · rintro ⟨h1, h2, h3, -⟩
      exact absurd h3 (h ⟨h1, h2⟩)

lemma parse_int_le {s : Str} {n : Nat} (h : parse_int s = some n) : n ≤ 9999 := by
  obtain ⟨h1, h2, h3, rfl⟩ := parse_int_some_iff.1 h
  have := digitsToNat_lt h3
  have hpow : 10 ^ (normalizeTextStr s).length ≤ 10 ^ 4 :=
    Nat.pow_le_pow_right (by omega) h2
  omega

/-- C6 (amended): integer coercion accepts exactly the inputs whose
normalized text is a string of one to four digits, returning its decimal
value (hence at most 9999); every other input — including the decimal
remnant `"7.0"` and digit-bearing text such as `"a7b"` — yields null. -/
theorem C6_int_coercion :
    (∀ (s : Str) (n : Nat), parse_int s = some n ↔
      (1 ≤ (normalizeTextStr s).length ∧ (normalizeTextStr s).length ≤ 4 ∧
       (normalizeTextStr s).all Char.isDigit = true ∧ n = digitsToNat (normalizeTextStr s))) ∧
    (∀ (s : Str) (n : Nat), parse_int s = some n → n ≤ 9999) ∧
    parse_int (S "7.0") = none ∧ parse_int (S "a7b") = none ∧ parse_int (S " 12 ") = some 12 :=
  ⟨fun _ _ => parse_int_some_iff, fun _ _ => parse_int_le, by decide, by decide, by decide⟩

/-- Counterexample for C6 as stated: the claimed decimal-remnant handling
does not exist, `"7.0"` does not coerce to `7`. -/
theorem C6_counterexample : ¬(parse_int (S "7.0") = some 7) := by decide

/-- Witness for C6: the characterization applied at `"12"`. -/
theorem C6_int_coercion_witness : parse_int (S "12") = some 12 ∧ 12 ≤ 9999 :=
  ⟨by decide, C6_int_coercion.2.1 (S "12") 12 (by decide)⟩

/-! ## Header locator: argmax with earliest-index tie-break -/

lemma bestHeaderAux_spec : ∀ (rs : List (List Str)) (i : Nat) (bi bs : Int),
    (bestHeaderAux i bi bs rs = (bi, bs) ∧
      ∀ j, j < rs.length → (headerScore (rs.getD j []) : Int) ≤ bs) ∨
    (∃ j, j < rs.length ∧
      bestHeaderAux i bi bs rs = (((i + j : Nat) : Int), (headerScore (rs.getD j []) : Int)) ∧
      bs < (headerScore (rs.getD j []) : Int) ∧
      (∀ j', j' < rs.length →
        headerScore (rs.getD j' []) ≤ headerScore (rs.getD j [])) ∧
      (∀ j', j' < j → headerScore (rs.getD j' []) < headerScore (rs.getD j []))) := by
  intro rs
  induction rs with
  | nil =>
    intro i bi bs
    left
    exact ⟨rfl, fun j hj => absurd hj (by simp)⟩
  | cons r rt ih =>
    intro i bi bs
    rw [bestHeaderAux]
    split_ifs with hlt
    · rcases ih (i + 1) i (headerScore r) with ⟨heq, hall⟩ | ⟨j2, hj2, heq, hgt, hmax, hstrict⟩
      · right
        refine ⟨0, by simp, ?_, by simpa using hlt, ?_, ?_⟩
        · simpa using heq
        · intro j' hj'
          cases j' with
          | zero => simp
          | succ k =>
            have := hall k (by simpa using hj')
            simp only [List.getD_cons_succ, List.getD_cons_zero]
            exact_mod_cast this
        · intro j' hj'; omega
      · right
        refine ⟨j2 + 1, by simpa using hj2, ?_, ?_, ?_, ?_⟩
        · rw [heq]
          simp only [List.getD_cons_succ]
          congr 2
          omega
        · simp only [List.getD_cons_succ]
          exact lt_trans hlt hgt
        · intro j' hj'
          cases j' with
          | zero =>
            simp only [List.getD_cons_succ, List.getD_cons_zero]
            have h1 : (headerScore r : Int) < headerScore (rt.getD j2 []) := hgt
            exact_mod_cast le_of_lt h1
          | succ k =>
            simp only [List.getD_cons_succ]
            exact hmax k (by simpa using hj')
        · intro j' hj'
          cases j' with
          | zero =>
            simp only [List.getD_cons_succ, List.getD_cons_zero]
            have h1 : (headerScore r : Int) < headerScore (rt.getD j2 []) := hgt
            exact_mod_cast h1
          | succ k =>
            simp only [List.getD_cons_succ]
            exact hstrict k (by omega)
    · rcases ih (i + 1) bi bs with ⟨heq, hall⟩ | ⟨j2, hj2, heq, hgt, hmax, hstrict⟩
      · left
        refine ⟨heq, ?_⟩
        intro j hj
        cases j with
        | zero =>
          simp only [List.getD_cons_zero]
          exact not_lt.mp hlt
        | succ k =>
          have := hall k (by simpa using hj)
          simpa using this
      · right
        refine ⟨j2 + 1, by simpa using hj2, ?_, hgt, ?_, ?_⟩
        · rw [heq]
          simp only [List.getD_cons_succ]
          congr 2
          omega
        · intro j' hj'
          cases j' with
          | zero =>
            simp only [List.getD_cons_succ, List.getD_cons_zero]
            have h0 : (headerScore r : Int) ≤ bs := not_lt.mp hlt
            have := lt_of_le_of_lt h0 hgt
            exact_mod_cast le_of_lt this
          | succ k =>
            simp only [List.getD_cons_succ]
            exact hmax k (by simpa using hj')
        · intro j' hj'
          cases j' with
          | zero =>
            simp only [List.getD_cons_succ, List.getD_cons_zero]
            have h0 : (headerScore r : Int) ≤ bs := not_lt.mp hlt
            have := lt_of_le_of_lt h0 hgt
            exact_mod_cast this
          | succ k =>
            simp only [List.getD_cons_succ]
            exact hstrict k (by omega)

lemma mapColumns_cases (rows : List (List Str)) (bi : Int) :
    (∃ cm, mapColumns rows bi = .ok (bi.toNat, cm)) ∨
    (∃ ms, mapColumns rows bi = .error (.columnMappingIncomplete ms)) := by
  unfold mapColumns
  split
  · exact Or.inl ⟨_, rfl⟩
  · exact Or.inr ⟨_, rfl⟩

/-- C3: the header locator's failure is exactly "every row scores below
4", and a successful detection returns a row of score at least 4 that is
maximal, with every strictly earlier row scoring strictly less (so a
later row with an equal score never wins). -/
theorem C3_header_locator (rows : List (List Str)) :
    (detect_header_and_map rows = .error .headerNotFound ↔ ∀ r ∈ rows, headerScore r < 4) ∧
    (∀ i cm, detect_header_and_map rows = .ok (i, cm) →
      4 ≤ headerScore (rows.getD i []) ∧
      (∀ j, j < rows.length → headerScore (rows.getD j []) ≤ headerScore (rows.getD i [])) ∧
      (∀ j, j < i → headerScore (rows.getD j []) < headerScore (rows.getD i []))) := by
  rcases bestHeaderAux_spec rows 0 (-1) (-1) with ⟨heq, hall⟩ | ⟨j, hj, heq, hgt, hmax, hstrict⟩
  · have hnil : rows = [] := by
      cases hrows : rows with
      | nil => rfl
      | cons r rt =>
        exfalso
        have h1 := hall 0 (by simp [hrows])
        have h0 : (0 : Int) ≤ (headerScore (rows.getD 0 []) : Int) := Int.natCast_nonneg _
        omega
    subst hnil
    refine ⟨⟨fun _ r hr => absurd hr (List.not_mem_nil r), fun _ => rfl⟩, ?_⟩
    intro i cm hok
    rw [show detect_header_and_map [] = .error .headerNotFound from rfl] at hok
    cases hok
  · have hfst : (bestHeaderAux 0 (-1) (-1) rows).1 = (j : Int) := by
      rw [heq]; simp
    have hsnd : (bestHeaderAux 0 (-1) (-1) rows).2 = (headerScore (rows.getD j []) : Int) := by
      rw [heq]
    have hmem : rows.getD j [] ∈ rows := by
      rw [List.getD_eq_getElem _ _ hj]
      exact List.getElem_mem hj
    by_cases h4 : headerScore (rows.getD j []) < 4
    · have hdet : detect_header_and_map rows = .error .headerNotFound := by
        unfold detect_header_and_map
        rw [hfst, hsnd, if_pos]
        simp only [Bool.or_eq_true, decide_eq_true_eq]
        right
        exact_mod_cast h4
      refine ⟨⟨fun _ => ?_, fun _ => hdet⟩, ?_⟩
      · intro r hr
        obtain ⟨idx, hidx, rfl⟩ := List.mem_iff_getElem.1 hr
        have h1 := hmax idx hidx
        rw [List.getD_eq_getElem _ _ hidx] at h1
        omega
      · intro i cm hok
        rw [hdet] at hok
        cases hok
    · have hdet : detect_header_and_map rows = mapColumns rows (j : Int) := by
        unfold detect_header_and_map
        rw [hfst, hsnd, if_neg]
        simp only [Bool.or_eq_true, decide_eq_true_eq, not_or, not_lt]
        constructor
        · exact Int.natCast_nonneg _
        · exact_mod_cast not_lt.mp h4
      constructor
      · constructor
        · intro herr
          rw [hdet] at herr
          rcases mapColumns_cases rows (j : Int) with ⟨cm, hcm⟩ | ⟨ms, hms⟩
          · rw [hcm] at herr; cases herr
          · rw [hms] at herr
            injection herr with h
            cases h
        · intro hall4
          exact absurd (hall4 _ hmem) h4
      · intro i cm hok
        rw [hdet] at hok
        rcases mapColumns_cases rows (j : Int) with ⟨cm', hcm⟩ | ⟨ms, hms⟩
        · rw [hcm] at hok
          injection hok with h
          injection h with h1 h2
          have hij : i = j := by
            rw [← h1]
            exact (Int.toNat_natCast j).symm
          subst hij
          exact ⟨not_lt.mp h4, fun j' hj' => hmax j' hj', fun j' hj' => hstrict j' hj'⟩
        · rw [hms] at hok
          cases hok

/-- Witness for C3: the canonical header is found at index 0 with a full
score of 6. -/
theorem C3_header_locator_witness :
    4 ≤ headerScore ([[S "ITEM", S "DESCRIÇÃO", S "UNID.", S "QUANT.",
        S "VALOR UNIT.", S "VALOR TOTAL"]].getD 0 []) :=
  ((C3_header_locator [[S "ITEM", S "DESCRIÇÃO", S "UNID.", S "QUANT.",
      S "VALOR UNIT.", S "VALOR TOTAL"]]).2 0 ⟨0, 1, 2, 3, 4, 5⟩ rfl).1

/-! ## Row parsing reads only the mapped columns -/

lemma getMapped_eq (row : List Str) (idx : Nat) :
    getMapped row idx = normalizeTextStr (row.getD idx []) := by
  unfold getMapped
  split_ifs with h
  · rfl
  · rw [List.getD_eq_default _ _ (le_of_not_lt h)]
    rfl

/-- C5 (amended): the parser reads each field only from its own column.
Two rows agreeing outside the description column give the same `unid`
whenever the unit column is distinct from the description column, and the
same `item`/`quant`/`valor_unit`/`valor_total` whenever the respective
column is distinct from the description column. -/
theorem C5_unit_independent (row₁ row₂ : List Str) (cm : ColMap)
    (hagree : ∀ j, j ≠ cm.desc → row₁.getD j [] = row₂.getD j []) :
    (cm.desc ≠ cm.unid →
      (parse_row_with_map row₁ cm).unid = (parse_row_with_map row₂ cm).unid) ∧
    (cm.desc ≠ cm.item →
      (parse_row_with_map row₁ cm).item = (parse_row_with_map row₂ cm).item) ∧
    (cm.desc ≠ cm.quant →
      (parse_row_with_map row₁ cm).quant = (parse_row_with_map row₂ cm).quant) ∧
    (cm.desc ≠ cm.vu →
      (parse_row_with_map row₁ cm).valor_unit = (parse_row_with_map row₂ cm).valor_unit) ∧
    (cm.desc ≠ cm.vt →
      (parse_row_with_map row₁ cm).valor_total = (parse_row_with_map row₂ cm).valor_total) := by
  have key : ∀ j, j ≠ cm.desc → getMapped row₁ j = getMapped row₂ j := by
    intro j hj
    rw [getMapped_eq, getMapped_eq, hagree j hj]
  refine ⟨?_, ?_, ?_, ?_, ?_⟩ <;> intro h <;>
    simp [parse_row_with_map, key _ (Ne.symm h)]

/-- A header cell `DESCRIÇÃO DO ITEM` is an alias of DESCRIÇÃO and also
contains `ITEM`, so ITEM and DESCRIÇÃO map to the same column. -/
def c5Header : List Str :=
  [S "DESCRIÇÃO DO ITEM", S "UNID.", S "QUANT.", S "VALOR UNIT.", S "VALOR TOTAL"]

def c5Map : ColMap := ⟨0, 0, 1, 2, 3, 4⟩

def c5Row1 : List Str := [S "1", S "UN", S "1", S "1,00", S "1,00"]

def c5Row2 : List Str := [S "2", S "UN", S "1", S "1,00", S "1,00"]

/-- Counterexample for C5 as stated: with the achievable column map in
which ITEM and DESCRIÇÃO share column 0 (distinct from the unit column),
two rows differing only at the description column produce different
`item` fields. -/
theorem C5_counterexample :
    detect_header_and_map [c5Header] = .ok (0, c5Map) ∧
    c5Map.desc ≠ c5Map.unid ∧
    (∀ j, j ≠ c5Map.desc → c5Row1.getD j [] = c5Row2.getD j []) ∧
    ¬((parse_row_with_map c5Row1 c5Map).item = (parse_row_with_map c5Row2 c5Map).item) := by
  refine ⟨rfl, by decide, ?_, by decide⟩
  intro j hj
  match j with
  | 0 => exact absurd rfl hj
  | 1 => rfl
  | 2 => rfl
  | 3 => rfl
  | 4 => rfl
  | n + 5 =>
    rw [List.getD_eq_default, List.getD_eq_default] <;> · show 5 ≤ n + 5; omega

/-- Witness for C5 at a fully separated column map: changing only the
description cell leaves every other parsed field unchanged. -/
theorem C5_unit_independent_witness :
    (parse_row_with_map [S "1", S "X", S "UN", S "2", S "1,00", S "2,00"] ⟨0, 1, 2, 3, 4, 5⟩).unid =
      (parse_row_with_map [S "1", S "Y", S "UN", S "2", S "1,00", S "2,00"] ⟨0, 1, 2, 3, 4, 5⟩).unid ∧
    (parse_row_with_map [S "1", S "X", S "UN", S "2", S "1,00", S "2,00"] ⟨0, 1, 2, 3, 4, 5⟩).item =
      (parse_row_with_map [S "1", S "Y", S "UN", S "2", S "1,00", S "2,00"] ⟨0, 1, 2, 3, 4, 5⟩).item := by
  have hagree : ∀ j, j ≠ (⟨0, 1, 2, 3, 4, 5⟩ : ColMap).desc →
      ([S "1", S "X", S "UN", S "2", S "1,00", S "2,00"] : List Str).getD j [] =
      ([S "1", S "Y", S "UN", S "2", S "1,00", S "2,00"] : List Str).getD j [] := by
    intro j hj
    match j with
    | 0 => rfl
    | 1 => exact absurd rfl hj
    | 2 => rfl
    | 3 => rfl
    | 4 => rfl
    | 5 => rfl
    | n + 6 =>
      rw [List.getD_eq_default, List.getD_eq_default] <;> · show 6 ≤ n + 6; omega
  have h := C5_unit_independent _ _ _ hagree
  exact ⟨h.1 (by decide), h.2.1 (by decide)⟩

/-! ## The output order: stable ascending sort with null items last -/

lemma filter_orderedInsert_key (k : Nat) (x : Rec) :
    ∀ l : List Rec, (List.orderedInsert sortLE x l).filter (fun r => sortKey r == k) =
      if sortKey x == k then x :: l.filter (fun r => sortKey r == k)
      else l.filter (fun r => sortKey r == k) := by
  intro l
  induction l with
  | nil =>
    cases hxk : (sortKey x == k) <;> simp [List.orderedInsert, List.filter, hxk]
  | cons y ys ih =>
    rw [List.orderedInsert]
    by_cases hle : sortLE x y
    · rw [if_pos hle]
      cases hxk : (sortKey x == k) <;> simp [List.filter_cons, hxk]
    · rw [if_neg hle]
      simp only [List.filter_cons, ih]
      cases hxk : (sortKey x == k) with
      | false => simp [hxk]
      | true =>
        have hyx : sortKey y < sortKey x := by
          unfold sortLE at hle
          omega
        have hyk : (sortKey y == k) = false := by
          rw [beq_eq_false_iff_ne]
          have hx : sortKey x = k := by simpa using hxk
          omega
        simp [hxk, hyk]

lemma filter_sortRecords_key (k : Nat) : ∀ l : List Rec,
    (sortRecords l).filter (fun r => sortKey r == k) = l.filter (fun r => sortKey r == k) := by
  intro l
  induction l with
  | nil => rfl
  | cons x xs ih =>
    rw [sortRecords, List.insertionSort, filter_orderedInsert_key]
    rw [show List.insertionSort sortLE xs = sortRecords xs from rfl, ih]
    cases hxk : (sortKey x == k) <;> simp [List.filter_cons, hxk]

lemma pipelineRecords_item_le {drows : List (List Str)} {cm : ColMap} :
    ∀ r ∈ pipelineRecords drows cm, ∀ n, r.item = some n → n ≤ 9999 := by
  intro r hr n hn
  obtain ⟨row, hrow, rfl⟩ := List.mem_map.1 hr
  have hitem : (finalizeRec (processRow cm row)).item =
      parse_int (getMapped (padRow row cm) cm.item) := by
    show (processRow cm row).item = _
    unfold processRow
    rw [(validate_frame _).1]
    rfl
  rw [hitem] at hn
  exact parse_int_le hn

/-- The three order properties of the stable sort on an item-bounded
record list. -/
lemma sortRecords_spec (L : List Rec)
    (hbound : ∀ r ∈ L, ∀ n, r.item = some n → n ≤ 9999) :
    (∀ i j (hi : i < (sortRecords L).length) (hj : j < (sortRecords L).length), i ≤ j →
      sortKey ((sortRecords L).get ⟨i, hi⟩) ≤ sortKey ((sortRecords L).get ⟨j, hj⟩)) ∧
    (∀ i j (hi : i < (sortRecords L).length) (hj : j < (sortRecords L).length), i < j →
      ((sortRecords L).get ⟨i, hi⟩).item = none → ((sortRecords L).get ⟨j, hj⟩).item = none) ∧
    (∀ r ∈ sortRecords L, ∀ n, r.item = some n → n ≤ 9999 ∧ n < 10 ^ 9) := by
  have hperm : (sortRecords L).Perm L := List.perm_insertionSort _ _
  have hsorted := List.sorted_insertionSort sortLE L
  have hboundS : ∀ r ∈ sortRecords L, ∀ n, r.item = some n → n ≤ 9999 :=
    fun r hr => hbound r (hperm.subset hr)
  have hmono : ∀ i j (hi : i < (sortRecords L).length) (hj : j < (sortRecords L).length),
      i ≤ j → sortKey ((sortRecords L).get ⟨i, hi⟩) ≤ sortKey ((sortRecords L).get ⟨j, hj⟩) := by
    intro i j hi hj hij
    rcases Nat.lt_or_ge i j with hlt | hge
    · exact List.pairwise_iff_get.1 hsorted ⟨i, hi⟩ ⟨j, hj⟩ hlt
    · have hij' : i = j := le_antisymm hij hge
      subst hij'
      exact le_refl _
  refine ⟨hmono, ?_, ?_⟩
  · intro i j hi hj hij hnone
    cases hitem : ((sortRecords L).get ⟨j, hj⟩).item with
    | none => rfl
    | some m =>
      exfalso
      have h1 := hmono i j hi hj (le_of_lt hij)
      have h2 : sortKey ((sortRecords L).get ⟨i, hi⟩) = 10 ^ 9 := by
        unfold sortKey
        rw [hnone]
      have h3 : sortKey ((sortRecords L).get ⟨j, hj⟩) = m := by
        unfold sortKey
        rw [hitem]
      have h4 : m ≤ 9999 := hboundS _ (List.get_mem _ _ _) m hitem
      rw [h2, h3] at h1
      norm_num at h1
      omega
  · intro r hr n hn
    refine ⟨hboundS r hr n hn, ?_⟩
    calc n ≤ 9999 := hboundS r hr n hn
      _ < 10 ^ 9 := by norm_num

/-- C8: extraction output is ascending in the sort key, null-item records
come after every numbered one (the `10^9` sentinel strictly exceeds every
value `parse_int` can produce, which is at most `9999`), and the order is
the stable ascending sort of the parse-order record list (stability
stated as: every sort-key class keeps its original parse order). -/
theorem C8_sorted_output (raws : List (List (Option Str))) (res : ExtractResult)
    (h : extract_table raws = .ok res) :
    (∀ i j (hi : i < res.rows.length) (hj : j < res.rows.length), i ≤ j →
      sortKey (res.rows.get ⟨i, hi⟩) ≤ sortKey (res.rows.get ⟨j, hj⟩)) ∧
    (∀ i j (hi : i < res.rows.length) (hj : j < res.rows.length), i < j →
      (res.rows.get ⟨i, hi⟩).item = none → (res.rows.get ⟨j, hj⟩).item = none) ∧
    (∀ r ∈ res.rows, ∀ n, r.item = some n → n ≤ 9999 ∧ n < 10 ^ 9) ∧
    (res.rows = [] ∨ ∃ hidx cm,
      detect_header_and_map (allRowsOf raws) = .ok (hidx, cm) ∧
      res.rows = sortRecords (pipelineRecords (collectData ((allRowsOf raws).drop (hidx + 1))) cm) ∧
      (∀ k, res.rows.filter (fun r => sortKey r == k) =
        (pipelineRecords (collectData ((allRowsOf raws).drop (hidx + 1))) cm).filter
          (fun r => sortKey r == k))) := by
  unfold extract_table at h
  split_ifs at h with hemp
  · injection h with h
    subst h
    refine ⟨?_, ?_, ?_, Or.inl rfl⟩
    · intro i j hi hj _
      exact absurd hi (by simp)
    · intro i j hi hj _
      exact absurd hi (by simp)
    · intro r hr
      exact absurd hr (List.not_mem_nil r)
  · cases hdet : detect_header_and_map (allRowsOf raws) with
    | error e => rw [hdet] at h; cases h
    | ok p =>
      rcases p with ⟨hidx, cm⟩
      rw [hdet] at h
      injection h with h
      subst h
      obtain ⟨p1, p2, p3⟩ := sortRecords_spec
        (pipelineRecords (collectData ((allRowsOf raws).drop (hidx + 1))) cm)
        pipelineRecords_item_le
      exact ⟨p1, p2, p3, Or.inr ⟨hidx, cm, rfl, rfl, fun k => filter_sortRecords_key k _⟩⟩

/-- Witness for C8 at the concrete document of `c2raws`: both records of
the result satisfy the item bound, and the null-item record sorts last. -/
theorem C8_sorted_output_witness :
    ∃ res, extract_table c2raws = .ok res ∧ res.rows.length = 2 ∧
      (∀ r ∈ res.rows, ∀ n, r.item = some n → n ≤ 9999 ∧ n < 10 ^ 9) := by
  refine ⟨_, rfl, rfl, ?_⟩
  exact (C8_sorted_output c2raws _ rfl).2.2.1

/-! ## Normalization is the identity on plain separator/digit strings -/

lemma isPySpace_toNat {c : Char} (h : isPySpace c = true) :
    c.toNat ≤ 32 ∨ c.toNat = 133 ∨ c.toNat = 160 ∨ 5760 ≤ c.toNat := by
  simp only [isPySpace, Bool.or_eq_true, Bool.and_eq_true, decide_eq_true_eq] at h
  omega

/-- Characters with code points in `[44, 57]` (digits, dot, comma and a
few others) are untouched by every normalization primitive. -/
lemma plain_of_toNat_range {c : Char} (h1 : 44 ≤ c.toNat) (h2 : c.toNat ≤ 57) :
    isPySpace c = false ∧ mapQuoteVariant c = c ∧ c ≠ '"' := by
  have hsp : isPySpace c = false := by
    cases hx : isPySpace c with
    | false => rfl
    | true =>
      exfalso
      rcases isPySpace_toNat hx with h | h | h | h <;> omega
  have hq : c ≠ '"' := by
    rintro rfl
    exact absurd h1 (by decide)
  have hq2 : c ≠ '”' := by
    rintro rfl
    exact absurd h2 (by decide)
  have hq3 : c ≠ '“' := by
    rintro rfl
    exact absurd h2 (by decide)
  have hq4 : c ≠ '″' := by
    rintro rfl
    exact absurd h2 (by decide)
  refine ⟨hsp, ?_, hq⟩
  unfold mapQuoteVariant
  rw [if_neg]
  simp [hq, hq2, hq3, hq4]

lemma pyUpperChar_id_low {c : Char} (h : c.toNat ≤ 57) : pyUpperChar c = c := by
  unfold pyUpperChar
  rw [if_neg, if_neg]
  · simp only [Bool.and_eq_true, decide_eq_true_eq, not_and]
    intro h1
    omega
  · simp only [Bool.and_eq_true, decide_eq_true_eq, not_and, Char.le_def]
    intro h1
    exfalso
    have h2 : 97 ≤ c.toNat := h1
    omega

lemma mapNbsp_id {l : Str} (h : ∀ c ∈ l, isPySpace c = false) : mapNbsp l = l := by
  unfold mapNbsp
  have hcongr : ∀ c ∈ l, (if c = '\u00A0' then ' ' else c) = id c := by
    intro c hc
    have hne : c ≠ '\u00A0' := by
      rintro rfl
      exact absurd (h _ hc) (by decide)
    simp [hne]
  rw [List.map_congr_left hcongr, List.map_id]

lemma collapseAux_id : ∀ {l : Str}, (∀ c ∈ l, isPySpace c = false) → ∀ b, collapseAux b l = l := by
  intro l
  induction l with
  | nil => intro _ b; rfl
  | cons x xs ih =>
    intro h b
    have hx := h x (List.mem_cons_self _ _)
    rw [collapseAux, if_neg (by simp [hx])]
    rw [ih (fun c hc => h c (List.mem_cons_of_mem _ hc)) false]

lemma lstripWs_id {l : Str} (h : ∀ c ∈ l, isPySpace c = false) : lstripWs l = l := by
  cases l with
  | nil => rfl
  | cons x xs =>
    have hx := h x (List.mem_cons_self _ _)
    simp [lstripWs, List.dropWhile_cons, hx]

lemma rstripWs_id : ∀ {l : Str}, (∀ c ∈ l, isPySpace c = false) → rstripWs l = l := by
  intro l
  induction l with
  | nil => intro _; rfl
  | cons x xs ih =>
    intro h
    have hx := h x (List.mem_cons_self _ _)
    have hxs := ih (fun c hc => h c (List.mem_cons_of_mem _ hc))
    rw [rstripWs, hxs]
    cases xs with
    | nil => simp [hx]
    | cons y ys => rfl

lemma pyStrip_id {l : Str} (h : ∀ c ∈ l, isPySpace c = false) : pyStrip l = l := by
  unfold pyStrip
  rw [lstripWs_id h, rstripWs_id h]

lemma mapQuoteVariant_map_id {l : Str} (h : ∀ c ∈ l, mapQuoteVariant c = c) :
    l.map mapQuoteVariant = l := by
  have hcongr : ∀ c ∈ l, mapQuoteVariant c = id c := h
  rw [List.map_congr_left hcongr, List.map_id]

lemma ssqAux_id : ∀ {l : Str}, (∀ c ∈ l, isPySpace c = false ∧ c ≠ '"') →
    ssqAux [] l = l := by
  intro l
  induction l with
  | nil => intro _; rfl
  | cons x xs ih =>
    intro h
    obtain ⟨hx1, hx2⟩ := h x (List.mem_cons_self _ _)
    rw [ssqAux, if_neg (by simp [hx1]), if_neg hx2]
    rw [ih (fun c hc => h c (List.mem_cons_of_mem _ hc))]
    rfl

lemma inchDigitAux_id : ∀ {l : Str}, (∀ c ∈ l, c ≠ '"') → ∀ p, inchDigitAux p l = l := by
  intro l
  induction l with
  | nil => intro _ p; rfl
  | cons x xs ih =>
    intro h p
    have hx := h x (List.mem_cons_self _ _)
    have hstep : inchDigitAux p (x :: xs) =
        (if x = '"' && (match p with | some q => q.isDigit | none => false) then '″' else x) ::
          inchDigitAux (some x) xs := rfl
    rw [hstep, if_neg (by simp [hx]), ih (fun c hc => h c (List.mem_cons_of_mem _ hc))]

lemma mapAllQuote_id {l : Str} (h : ∀ c ∈ l, c ≠ '"') : mapAllQuote l = l := by
  unfold mapAllQuote
  have hcongr : ∀ c ∈ l, (if c = '"' then '″' else c) = id c := by
    intro c hc
    simp [h c hc]
  rw [List.map_congr_left hcongr, List.map_id]

/-- `normalize_text` is the identity on strings made of characters that
are not whitespace and not quote variants. -/
lemma normalizeTextStr_id {l : Str}
    (h : ∀ c ∈ l, isPySpace c = false ∧ mapQuoteVariant c = c ∧ c ≠ '"') :
    normalizeTextStr l = l := by
  have h1 : ∀ c ∈ l, isPySpace c = false := fun c hc => (h c hc).1
  unfold normalizeTextStr
  rw [mapNbsp_id h1]
  rw [show collapseSpaces l = l from collapseAux_id h1 false]
  rw [pyStrip_id h1]
  unfold normalize_inches
  split_ifs with h0
  · rfl
  · rw [mapQuoteVariant_map_id (fun c hc => (h c hc).2.1)]
    rw [show subSpaceQuote l = l from ssqAux_id (fun c hc => ⟨(h c hc).1, (h c hc).2.2⟩)]
    rw [show inchDigitAux none l = l from inchDigitAux_id (fun c hc => (h c hc).2.2) none]
    rw [mapAllQuote_id (fun c hc => (h c hc).2.2)]

lemma scAux_id : ∀ (skip : Bool) (l : Str), skip = false → (∀ c ∈ l, c ≠ 'R') →
    scAux skip l = l := by
  intro skip l
  induction skip, l using scAux.induct with
  | case1 b => intro _ _; rfl
  | case2 sk x hx =>
    intro hsk h
    subst hsk
    simp at hx
  | case3 sk x hx =>
    intro hsk h
    rw [scAux, if_neg hx]
  | case4 sk x y t hx ih =>
    intro hsk h
    subst hsk
    simp at hx
  | case5 sk x y t hx hxy ih =>
    intro hsk h
    exfalso
    simp only [Bool.and_eq_true, decide_eq_true_eq] at hxy
    exact (h x (List.mem_cons_self _ _)) hxy.1
  | case6 sk x y t hx hxy ih =>
    intro hsk h
    rw [scAux, if_neg hx, if_neg hxy]
    rw [ih rfl (fun c hc => h c (List.mem_cons_of_mem _ hc))]

/-! ## takeWhile/dropWhile decomposition helpers -/

lemma takeWhile_of_all {p : Char → Bool} : ∀ {l : Str}, (∀ c ∈ l, p c = true) →
    l.takeWhile p = l := by
  intro l
  induction l with
  | nil => intro _; rfl
  | cons x xs ih =>
    intro h
    rw [List.takeWhile_cons, if_pos (h x (List.mem_cons_self _ _))]
    rw [ih (fun c hc => h c (List.mem_cons_of_mem _ hc))]

lemma dropWhile_of_all {p : Char → Bool} : ∀ {l : Str}, (∀ c ∈ l, p c = true) →
    l.dropWhile p = [] := by
  intro l
  induction l with
  | nil => intro _; rfl
  | cons x xs ih =>
    intro h
    rw [List.dropWhile_cons, if_pos (h x (List.mem_cons_self _ _))]
    exact ih (fun c hc => h c (List.mem_cons_of_mem _ hc))

lemma takeWhile_all_append {p : Char → Bool} {v : Char} (hv : p v = false) :
    ∀ {u w : Str}, (∀ c ∈ u, p c = true) → (u ++ v :: w).takeWhile p = u := by
  intro u
  induction u with
  | nil =>
    intro w _
    simp [List.takeWhile_cons, hv]
  | cons x xs ih =>
    intro w h
    rw [List.cons_append, List.takeWhile_cons, if_pos (h x (List.mem_cons_self _ _))]
    rw [ih (fun c hc => h c (List.mem_cons_of_mem _ hc))]

lemma dropWhile_all_append {p : Char → Bool} {v : Char} (hv : p v = false) :
    ∀ {u w : Str}, (∀ c ∈ u, p c = true) → (u ++ v :: w).dropWhile p = v :: w := by
  intro u
  induction u with
  | nil =>
    intro w _
    simp [List.dropWhile_cons, hv]
  | cons x xs ih =>
    intro w h
    rw [List.cons_append, List.dropWhile_cons, if_pos (h x (List.mem_cons_self _ _))]
    exact ih (fun c hc => h c (List.mem_cons_of_mem _ hc))

lemma dropWhile_head_false {p : Char → Bool} :
    ∀ {l : Str} {x : Char} {xs : Str}, l.dropWhile p = x :: xs → p x = false := by
  intro l
  induction l with
  | nil => intro x xs h; cases h
  | cons y ys ih =>
    intro x xs h
    rw [List.dropWhile_cons] at h
    split_ifs at h with hy
    · exact ih h
    · injection h with h1 h2
      subst h1
      exact Bool.eq_false_iff.2 hy

/-! ## `pyFloat` on canonical digit strings -/

lemma pyFloatBody_digits {a : Str} (ha : ∀ c ∈ a, c.isDigit = true) (hne : a ≠ []) :
    pyFloatBody a = some ((digitsToNat a : ℚ)) := by
  have hdw : a.dropWhile Char.isDigit = [] := dropWhile_of_all ha
  have htw : a.takeWhile Char.isDigit = a := takeWhile_of_all ha
  unfold pyFloatBody
  split
  next heq =>
    rw [htw, if_neg (by simpa using hne)]
  next b heq =>
    rw [hdw] at heq
    cases heq
  next heq1 heq2 =>
    exact absurd hdw heq1

lemma pyFloatBody_digits_dot {a b : Str} (ha : ∀ c ∈ a, c.isDigit = true)
    (hb : ∀ c ∈ b, c.isDigit = true) (hne : a ≠ [] ∨ b ≠ []) :
    pyFloatBody (a ++ '.' :: b) =
      some ((digitsToNat a : ℚ) + (digitsToNat b : ℚ) / 10 ^ b.length) := by
  have hdw : (a ++ '.' :: b).dropWhile Char.isDigit = '.' :: b :=
    dropWhile_all_append (by decide) ha
  have htw : (a ++ '.' :: b).takeWhile Char.isDigit = a :=
    takeWhile_all_append (by decide) ha
  unfold pyFloatBody
  split
  next heq =>
    rw [hdw] at heq
    cases heq
  next b' heq =>
    rw [hdw] at heq
    injection heq with h1 h2
    subst h2
    rw [htw, if_pos]
    simp only [Bool.and_eq_true, Bool.or_eq_true, List.all_eq_true]
    constructor
    · intro c hc
      exact hb c hc
    · rcases hne with h | h
      · left
        simpa using h
      · right
        simpa using h
  next heq1 heq2 =>
    exact absurd hdw (heq2 b)

lemma pyFloat_eq_body {u : Str} (hchars : ∀ c ∈ u, c.isDigit = true ∨ c = '.') :
    pyFloat u = pyFloatBody u := by
  have hns : ∀ c ∈ u, isPySpace c = false := by
    intro c hc
    rcases hchars c hc with h | rfl
    · have := digit_toNat_bounds h
      exact (plain_of_toNat_range (by omega) (by omega)).1
    · decide
  unfold pyFloat
  rw [pyStrip_id hns]
  split
  · exfalso
    rcases hchars '-' (List.mem_cons_self _ _) with h | h
    · exact absurd h (by decide)
    · exact absurd h (by decide)
  · exfalso
    rcases hchars '+' (List.mem_cons_self _ _) with h | h
    · exact absurd h (by decide)
    · exact absurd h (by decide)
  · rfl

/-- Specification-side value of a normalized money string under the
amended reading: dots are thousands separators and are dropped, the
digits before the comma form the integer part, the digits after it form
the decimal fraction. -/
def moneySpecVal (s : Str) : ℚ :=
  (digitsToNat ((s.filter (fun c => c ≠ '.')).takeWhile (fun c => c ≠ ',')) : ℚ) +
  (digitsToNat (((s.filter (fun c => c ≠ '.')).dropWhile (fun c => c ≠ ',')).drop 1) : ℚ) /
    10 ^ (((s.filter (fun c => c ≠ '.')).dropWhile (fun c => c ≠ ',')).drop 1).length

lemma parse_money_spec (s : Str) (hchar : ∀ c ∈ s, c.isDigit = true ∨ c = '.' ∨ c = ',')
    (hcomma : s.count ',' ≤ 1) (hdig : ∃ c ∈ s, c.isDigit = true) :
    parse_money s = some (moneySpecVal s) := by
  have hrange : ∀ c ∈ s, 44 ≤ c.toNat ∧ c.toNat ≤ 57 := by
    intro c hc
    rcases hchar c hc with h | rfl | rfl
    · have := digit_toNat_bounds h
      omega
    · exact ⟨by decide, by decide⟩
    · exact ⟨by decide, by decide⟩
  have hplain : ∀ c ∈ s, isPySpace c = false ∧ mapQuoteVariant c = c ∧ c ≠ '"' :=
    fun c hc => plain_of_toNat_range (hrange c hc).1 (hrange c hc).2
  obtain ⟨c0, hc0m, hc0d⟩ := hdig
  have hne : s ≠ [] := by
    rintro rfl
    exact absurd hc0m (List.not_mem_nil c0)
  unfold parse_money
  rw [if_neg (by simpa [List.isEmpty_iff] using hne)]
  rw [normalizeTextStr_id hplain]
  have hRS : ¬(pyUpper s = S "R$") := by
    intro hcon
    have hS : S "R$" = ['R', '$'] := rfl
    rw [hS] at hcon
    cases s with
    | nil => cases hcon
    | cons c cs =>
      have h57 := (hrange c (List.mem_cons_self _ _)).2
      simp only [pyUpper, List.map_cons] at hcon
      injection hcon with h1 h2
      rw [pyUpperChar_id_low h57] at h1
      subst h1
      exact absurd h57 (by decide)
  rw [if_neg hRS]
  rw [show stripCurrency s = s from scAux_id false s rfl (fun c hc => by
    have := (hrange c hc).2
    rintro rfl
    exact absurd this (by decide))]
  have htchar : ∀ c ∈ s.filter (fun c => c ≠ '.'), c.isDigit = true ∨ c = ',' := by
    intro c hc
    obtain ⟨hcs, hcdot⟩ := List.mem_filter.1 hc
    rcases hchar c hcs with h | h | h
    · exact Or.inl h
    · exfalso
      rw [h] at hcdot
      simp at hcdot
    · exact Or.inr h
  have hc0t : c0 ∈ s.filter (fun c => c ≠ '.') := by
    refine List.mem_filter.2 ⟨hc0m, ?_⟩
    simp only [decide_eq_true_eq]
    rintro rfl
    exact absurd hc0d (by decide)
  have hadsplit := List.takeWhile_append_dropWhile
    (fun c => c ≠ ',') (s.filter (fun c => c ≠ '.'))
  have haDigit : ∀ c ∈ (s.filter (fun c => c ≠ '.')).takeWhile (fun c => c ≠ ','),
      c.isDigit = true := by
    intro c hc
    have hmem : c ∈ s.filter (fun c => c ≠ '.') := by
      rw [← hadsplit]
      exact List.mem_append_left _ hc
    have hnc : c ≠ ',' := by simpa using List.mem_takeWhile_imp hc
    exact (htchar c hmem).resolve_right hnc
  have hanoc : ∀ c ∈ (s.filter (fun c => c ≠ '.')).takeWhile (fun c => c ≠ ','), c ≠ ',' := by
    intro c hc
    simpa using List.mem_takeWhile_imp hc
  cases hd : (s.filter (fun c => c ≠ '.')).dropWhile (fun c => c ≠ ',') with
  | nil =>
    have hta : (s.filter (fun c => c ≠ '.')).takeWhile (fun c => c ≠ ',') =
        s.filter (fun c => c ≠ '.') := by
      conv_rhs => rw [← hadsplit]
      rw [hd, List.append_nil]
    have htdig : ∀ c ∈ s.filter (fun c => c ≠ '.'), c.isDigit = true := by
      intro c hc
      rw [← hta] at hc
      exact haDigit c hc
    have hmap : (s.filter (fun c => c ≠ '.')).map (fun c => if c = ',' then '.' else c) =
        s.filter (fun c => c ≠ '.') := by
      have hcongr : ∀ c ∈ s.filter (fun c => c ≠ '.'),
          (if c = ',' then '.' else c) = id c := by
        intro c hc
        have hdc := htdig c hc
        have hnc : c ≠ ',' := by
          rintro rfl
          exact absurd hdc (by decide)
        simp [hnc]
      rw [List.map_congr_left hcongr, List.map_id]
    rw [hmap]
    rw [pyFloat_eq_body (fun c hc => Or.inl (htdig c hc))]
    rw [pyFloatBody_digits htdig (by
      rintro h
      rw [h] at hc0t
      exact absurd hc0t (List.not_mem_nil _))]
    unfold moneySpecVal
    rw [hd, hta]
    simp [digitsToNat]
  | cons x b =>
    have hx : x = ',' := by
      have := dropWhile_head_false hd
      simpa using this
    subst hx
    have hcount1 : (s.filter (fun c => c ≠ '.')).count ',' ≤ 1 :=
      le_trans (List.Sublist.count_le (List.filter_sublist _) ',') hcomma
    have hcountA : ((s.filter (fun c => c ≠ '.')).takeWhile (fun c => c ≠ ',')).count ',' = 0 :=
      List.count_eq_zero.2 (fun hmem => (hanoc ',' hmem) rfl)
    have hcountb : b.count ',' = 0 := by
      have hsplit2 : (s.filter (fun c => c ≠ '.')).count ',' =
          ((s.filter (fun c => c ≠ '.')).takeWhile (fun c => c ≠ ',')).count ',' +
          (',' :: b).count ',' := by
        conv_lhs => rw [← hadsplit, hd]
        rw [List.count_append]
      rw [hcountA, List.count_cons_self] at hsplit2
      omega
    have hbnoc : ∀ c ∈ b, c ≠ ',' := by
      intro c hc
      rintro rfl
      exact absurd hc (List.count_eq_zero.1 hcountb)
    have hbdig : ∀ c ∈ b, c.isDigit = true := by
      intro c hc
      have hmem : c ∈ s.filter (fun c => c ≠ '.') := by
        rw [← hadsplit, hd]
        exact List.mem_append_right _ (List.mem_cons_of_mem _ hc)
      exact (htchar c hmem).resolve_right (hbnoc c hc)
    have hmap : (s.filter (fun c => c ≠ '.')).map (fun c => if c = ',' then '.' else c) =
        ((s.filter (fun c => c ≠ '.')).takeWhile (fun c => c ≠ ',')) ++ '.' :: b := by
      conv_lhs => rw [← hadsplit, hd]
      rw [List.map_append, List.map_cons]
      congr 1
      · have hcongr : ∀ c ∈ (s.filter (fun c => c ≠ '.')).takeWhile (fun c => c ≠ ','),
            (if c = ',' then '.' else c) = id c := by
          intro c hc
          simp [hanoc c hc]
        rw [List.map_congr_left hcongr, List.map_id]
      · congr 1
        have hcongr : ∀ c ∈ b, (if c = ',' then '.' else c) = id c := by
          intro c hc
          simp [hbnoc c hc]
        rw [List.map_congr_left hcongr, List.map_id]
    rw [hmap]
    have hunion : ∀ c ∈ ((s.filter (fun c => c ≠ '.')).takeWhile (fun c => c ≠ ',')) ++ '.' :: b,
        c.isDigit = true ∨ c = '.' := by
      intro c hc
      rcases List.mem_append.1 hc with h | h
      · exact Or.inl (haDigit c h)
      · rcases List.mem_cons.1 h with rfl | h2
        · exact Or.inr rfl
        · exact Or.inl (hbdig c h2)
    rw [pyFloat_eq_body hunion]
    have hnonempty : ((s.filter (fun c => c ≠ '.')).takeWhile (fun c => c ≠ ',')) ≠ [] ∨ b ≠ [] := by
      have hc0' := hc0t
      rw [← hadsplit, hd] at hc0'
      rcases List.mem_append.1 hc0' with h | h
      · exact Or.inl (List.ne_nil_of_mem h)
      · rcases List.mem_cons.1 h with rfl | h2
        · exact absurd hc0d (by decide)
        · exact Or.inr (List.ne_nil_of_mem h2)
    rw [pyFloatBody_digits_dot haDigit hbdig hnonempty]
    unfold moneySpecVal
    rw [hd]
    rfl

/-- C1 (amended): on every normalized money string (digits with dot and
at most one comma), coercion strips every dot as a thousands separator
and reads the comma as the decimal point — so "2.277,92" yields 2277.92
and a comma-only string reads the comma as decimal, but a dot-only
string like "49.52" yields 4952, not 49.52. -/
theorem C1_money_separators :
    (∀ s : Str, (∀ c ∈ s, c.isDigit = true ∨ c = '.' ∨ c = ',') →
        s.count ',' ≤ 1 → (∃ c ∈ s, c.isDigit = true) →
        parse_money s = some (moneySpecVal s)) ∧
    parse_money (S "2.277,92") = some (2277.92 : ℚ) ∧
    parse_money (S "1,5") = some (1.5 : ℚ) ∧
    parse_money (S "49.52") = some (4952 : ℚ) :=
  ⟨parse_money_spec, by decide, by decide, by decide⟩

/-- Counterexample for C1 as stated: a dot-only money string is not read
as a standard decimal; the dot is removed as a thousands separator. -/
theorem C1_counterexample :
    parse_money (S "49.52") = some (4952 : ℚ) ∧
    ¬(parse_money (S "49.52") = some (49.52 : ℚ)) :=
  ⟨by decide, by decide⟩

/-- Witness for C1: the general separator theorem applied to the spec's
own example "2.277,92". -/
theorem C1_money_separators_witness :
    parse_money (S "2.277,92") = some (moneySpecVal (S "2.277,92")) :=
  C1_money_separators.1 (S "2.277,92") (by decide) (by decide) (by decide)

/-! ## Idempotence of `normalize_text`

The output of one normalization pass satisfies a handful of structural
invariants — every whitespace character is a plain space, no two adjacent
whitespace characters, no leading or trailing whitespace, no straight or
curly quotes, and no whitespace immediately before an inch glyph — and on
strings with these invariants every pass-two primitive is the identity
(with the quote glyph travelling through the variant map and back). -/

/-- Adjacent-pair invariant: `P` holds of every consecutive pair. -/
def pairOK (P : Char → Char → Prop) : Str → Prop
  | a :: b :: t => P a b ∧ pairOK P (b :: t)
  | _ => True

lemma pairOK_tail {P : Char → Char → Prop} {x : Char} {r : Str}
    (h : pairOK P (x :: r)) : pairOK P r := by
  cases r with
  | nil => trivial
  | cons y t => exact h.2

lemma pairOK_cons {P : Char → Char → Prop} {x : Char} {r : Str}
    (h1 : ∀ y t, r = y :: t → P x y) (h2 : pairOK P r) : pairOK P (x :: r) := by
  cases r with
  | nil => trivial
  | cons y t => exact ⟨h1 y t rfl, h2⟩

lemma pairOK_map {P Q : Char → Char → Prop} {f : Char → Char}
    (hf : ∀ a b, P a b → Q (f a) (f b)) :
    ∀ {l : Str}, pairOK P l → pairOK Q (l.map f) := by
  intro l
  induction l with
  | nil => intro _; trivial
  | cons x r ih =>
    intro h
    cases r with
    | nil => trivial
    | cons y t => exact ⟨hf x y h.1, ih h.2⟩

/-- Invariant on the first character, when there is one. -/
def headOkP (q : Char → Prop) : Str → Prop
  | [] => True
  | c :: _ => q c

/-- Invariant on the last character, when there is one. -/
def lastOkP (q : Char → Prop) : Str → Prop
  | [] => True
  | [c] => q c
  | _ :: b :: t => lastOkP q (b :: t)

lemma lastOkP_cons {q : Char → Prop} {x : Char} {r : Str} (hr : r ≠ []) :
    lastOkP q (x :: r) ↔ lastOkP q r := by
  cases r with
  | nil => exact absurd rfl hr
  | cons y t => exact Iff.rfl

lemma lastOkP_append {q : Char → Prop} {w r : Str} (hr : r ≠ []) :
    lastOkP q (w ++ r) ↔ lastOkP q r := by
  induction w with
  | nil => exact Iff.rfl
  | cons x xs ih =>
    rw [List.cons_append, lastOkP_cons, ih]
    intro h
    exact hr (List.append_eq_nil.1 h).2

/-- The five invariants of a normalized string. -/
def wsPlain (l : Str) : Prop := ∀ c ∈ l, isPySpace c = true → c = ' '

def noTwoWs : Str → Prop :=
  pairOK (fun a b => ¬(isPySpace a = true ∧ isPySpace b = true))

def noWsQuote : Str → Prop := pairOK (fun a b => ¬(isPySpace a = true ∧ b = '"'))

def noWsGlyph : Str → Prop := pairOK (fun a b => ¬(isPySpace a = true ∧ b = '″'))

def headNoWs : Str → Prop := headOkP (fun c => isPySpace c = false)

def lastNoWs : Str → Prop := lastOkP (fun c => isPySpace c = false)

lemma ws_ne_quote {c : Char} (h : isPySpace c = true) : c ≠ '"' := by
  rintro rfl
  exact absurd h (by decide)

lemma ws_ne_glyph {c : Char} (h : isPySpace c = true) : c ≠ '″' := by
  rintro rfl
  exact absurd h (by decide)

lemma collapse_wsPlain : ∀ (l : Str) (b : Bool), wsPlain (collapseAux b l) := by
  intro l
  induction l with
  | nil => intro b c hc _; cases hc
  | cons x xs ih =>
    intro b c hc hcs
    by_cases hx : isPySpace x = true
    · rw [collapseAux, if_pos hx] at hc
      cases b
      · rcases List.mem_cons.1 hc with rfl | hc'
        · rfl
        · exact ih true c hc' hcs
      · exact ih true c hc hcs
    · rw [collapseAux, if_neg hx] at hc
      rcases List.mem_cons.1 hc with rfl | hc'
      · exact absurd hcs hx
      · exact ih false c hc' hcs

lemma collapse_true_head : ∀ (l : Str), headNoWs (collapseAux true l) := by
  intro l
  induction l with
  | nil => trivial
  | cons x xs ih =>
    by_cases hx : isPySpace x = true
    · rw [collapseAux, if_pos hx]
      exact ih
    · rw [collapseAux, if_neg hx]
      exact Bool.eq_false_iff.2 hx

lemma collapse_noTwo : ∀ (l : Str) (b : Bool), noTwoWs (collapseAux b l) := by
  intro l
  induction l with
  | nil => intro b; trivial
  | cons x xs ih =>
    intro b
    by_cases hx : isPySpace x = true
    · rw [collapseAux, if_pos hx]
      cases b
      · refine pairOK_cons ?_ (ih true)
        intro y t hyt
        have := collapse_true_head xs
        rw [hyt] at this
        intro hcon
        have hy : isPySpace y = false := this
        rw [hy] at hcon
        exact absurd hcon.2 (by decide)
      · exact ih true
    · rw [collapseAux, if_neg hx]
      refine pairOK_cons ?_ (ih false)
      intro y t hyt hcon
      exact absurd hcon.1 hx

lemma dropWhileWs_noTwo : ∀ {l : Str}, noTwoWs l → noTwoWs (l.dropWhile isPySpace) := by
  intro l
  induction l with
  | nil => intro _; trivial
  | cons x xs ih =>
    intro h
    rw [List.dropWhile_cons]
    split_ifs with hx
    · exact ih (pairOK_tail h)
    · exact h

lemma lstrip_headNoWs (l : Str) : headNoWs (lstripWs l) := by
  cases hr : lstripWs l with
  | nil => trivial
  | cons y t => exact dropWhile_head_false hr

lemma lstrip_lastNoWs {l : Str} (h : lastNoWs l) : lastNoWs (lstripWs l) := by
  cases hr : lstripWs l with
  | nil => trivial
  | cons y t =>
    have hsplit : l = l.takeWhile isPySpace ++ (y :: t) := by
      conv_lhs => rw [← List.takeWhile_append_dropWhile isPySpace l]
      rw [show l.dropWhile isPySpace = y :: t from hr]
    rw [hsplit] at h
    exact (lastOkP_append (by simp)).1 h

lemma rstripWs_mem : ∀ {l : Str} {c : Char}, c ∈ rstripWs l → c ∈ l := by
  intro l
  induction l with
  | nil => intro c hc; cases hc
  | cons x xs ih =>
    intro c hc
    rw [rstripWs] at hc
    rcases hr : rstripWs xs with _ | ⟨y, ys⟩
    · rw [hr] at hc
      split_ifs at hc with hx
      · cases hc
      · rcases List.mem_cons.1 hc with rfl | hc'
        · exact List.mem_cons_self _ _
        · cases hc'
    · rw [hr] at hc
      rcases List.mem_cons.1 hc with rfl | hc'
      · exact List.mem_cons_self _ _
      · exact List.mem_cons_of_mem _ (ih (hr ▸ hc'))

lemma rstrip_head_eq : ∀ {l : Str} {y : Char} {ys : Str}, rstripWs l = y :: ys →
    ∃ t, l = y :: t := by
  intro l
  cases l with
  | nil => intro y ys h; cases h
  | cons x xs =>
    intro y ys h
    rw [rstripWs] at h
    rcases hr : rstripWs xs with _ | ⟨z, zs⟩
    · rw [hr] at h
      by_cases hx : isPySpace x = true
      · rw [if_pos hx] at h
        cases h
      · rw [if_neg hx] at h
        rw [List.cons.injEq] at h
        exact ⟨xs, by rw [h.1]⟩
    · rw [hr] at h
      rw [List.cons.injEq] at h
      exact ⟨xs, by rw [h.1]⟩


lemma rstripWs_noTwo : ∀ {l : Str}, noTwoWs l → noTwoWs (rstripWs l) := by
  intro l
  induction l with
  | nil => intro _; trivial
  | cons x xs ih =>
    intro h
    rw [rstripWs]
    rcases hr : rstripWs xs with _ | ⟨y, ys⟩
    · split_ifs with hx
      · trivial
      · trivial
    · refine pairOK_cons ?_ (hr ▸ ih (pairOK_tail h))
      intro z t hzt
      injection hzt with h1 h2
      subst h1
      obtain ⟨t2, ht2⟩ := rstrip_head_eq hr
      rw [ht2] at h
      exact h.1

lemma rstripWs_lastNoWs : ∀ (l : Str), lastNoWs (rstripWs l) := by
  intro l
  induction l with
  | nil => trivial
  | cons x xs ih =>
    rw [rstripWs]
    rcases hr : rstripWs xs with _ | ⟨y, ys⟩
    · split_ifs with hx
      · trivial
      · exact Bool.eq_false_iff.2 hx
    · rw [show lastNoWs (x :: y :: ys) = lastNoWs (y :: ys) from rfl, ← hr]
      exact ih

lemma rstripWs_headNoWs : ∀ {l : Str}, headNoWs l → headNoWs (rstripWs l) := by
  intro l
  cases l with
  | nil => intro _; trivial
  | cons x xs =>
    intro h
    rw [rstripWs]
    rcases hr : rstripWs xs with _ | ⟨y, ys⟩
    · split_ifs with hx
      · trivial
      · exact h
    · exact h

/-- One collapse-and-strip pass yields all four whitespace invariants. -/
lemma stripped_invariants (l : Str) :
    wsPlain (pyStrip (collapseSpaces (mapNbsp l))) ∧
    noTwoWs (pyStrip (collapseSpaces (mapNbsp l))) ∧
    headNoWs (pyStrip (collapseSpaces (mapNbsp l))) ∧
    lastNoWs (pyStrip (collapseSpaces (mapNbsp l))) := by
  unfold pyStrip collapseSpaces
  refine ⟨?_, ?_, ?_, ?_⟩
  · intro c hc
    exact collapse_wsPlain (mapNbsp l) false c
      ((List.dropWhile_sublist _).subset (rstripWs_mem hc))
  · exact rstripWs_noTwo (dropWhileWs_noTwo (collapse_noTwo (mapNbsp l) false))
  · exact rstripWs_headNoWs (lstrip_headNoWs _)
  · exact rstripWs_lastNoWs _

lemma pairOK_map_mem {P Q : Char → Char → Prop} {f : Char → Char} :
    ∀ {l : Str}, pairOK P l → (∀ a b, a ∈ l → b ∈ l → P a b → Q (f a) (f b)) →
    pairOK Q (l.map f) := by
  intro l
  induction l with
  | nil => intro _ _; trivial
  | cons x r ih =>
    intro h hf
    cases r with
    | nil => trivial
    | cons y t =>
      refine ⟨hf x y (List.mem_cons_self _ _)
        (List.mem_cons_of_mem _ (List.mem_cons_self _ _)) h.1, ?_⟩
      exact ih h.2 (fun a b ha hb hP =>
        hf a b (List.mem_cons_of_mem _ ha) (List.mem_cons_of_mem _ hb) hP)

lemma headOkP_map {q q2 : Char → Prop} {f : Char → Char} {l : Str}
    (h : headOkP q l) (hf : ∀ c ∈ l, q c → q2 (f c)) : headOkP q2 (l.map f) := by
  cases l with
  | nil => trivial
  | cons x xs => exact hf x (List.mem_cons_self _ _) h

lemma lastOkP_map {q q2 : Char → Prop} {f : Char → Char} :
    ∀ {l : Str}, lastOkP q l → (∀ c ∈ l, q c → q2 (f c)) → lastOkP q2 (l.map f) := by
  intro l
  induction l with
  | nil => intro _ _; trivial
  | cons x xs ih =>
    intro h hf
    cases xs with
    | nil => exact hf x (List.mem_cons_self _ _) h
    | cons y t =>
      rw [List.map_cons, List.map_cons, lastOkP_cons (by simp), ← List.map_cons]
      exact ih ((lastOkP_cons (by simp)).1 h)
        (fun c hc hqc => hf c (List.mem_cons_of_mem _ hc) hqc)

lemma ssqAux_subset : ∀ {l : Str} (pend : Str) {c : Char},
    c ∈ ssqAux pend l → c ∈ pend ∨ c ∈ l := by
  intro l
  induction l with
  | nil =>
    intro pend c hc
    rw [ssqAux] at hc
    exact Or.inl (List.mem_reverse.1 hc)
  | cons x xs ih =>
    intro pend c hc
    by_cases hx : isPySpace x = true
    · rw [ssqAux, if_pos hx] at hc
      rcases ih (x :: pend) hc with h | h
      · rcases List.mem_cons.1 h with rfl | h2
        · exact Or.inr (List.mem_cons_self _ _)
        · exact Or.inl h2
      · exact Or.inr (List.mem_cons_of_mem _ h)
    · rw [ssqAux, if_neg hx] at hc
      by_cases hx2 : x = '"'
      · rw [if_pos hx2] at hc
        rcases List.mem_cons.1 hc with rfl | h2
        · exact Or.inr (by rw [hx2]; exact List.mem_cons_self _ _)
        · rcases ih [] h2 with h | h
          · cases h
          · exact Or.inr (List.mem_cons_of_mem _ h)
      · rw [if_neg hx2] at hc
        rcases List.mem_append.1 hc with h | h
        · exact Or.inl (List.mem_reverse.1 h)
        · rcases List.mem_cons.1 h with rfl | h2
          · exact Or.inr (List.mem_cons_self _ _)
          · rcases ih [] h2 with h3 | h3
            · cases h3
            · exact Or.inr (List.mem_cons_of_mem _ h3)

lemma mqv_ws {c : Char} (h : isPySpace (mapQuoteVariant c) = true) :
    isPySpace c = true ∧ mapQuoteVariant c = c := by
  unfold mapQuoteVariant at h ⊢
  split_ifs at h ⊢ with hc
  · exact absurd h (by decide)
  · exact ⟨h, rfl⟩

lemma mqv_nws {c : Char} (h : isPySpace c = false) :
    isPySpace (mapQuoteVariant c) = false := by
  cases hx : isPySpace (mapQuoteVariant c) with
  | false => rfl
  | true => exact absurd (mqv_ws hx).1 (by simp [h])

lemma mqv_ne_glyph (c : Char) : mapQuoteVariant c ≠ '″' := by
  unfold mapQuoteVariant
  split_ifs with h
  · decide
  · intro hc
    exact h (by rw [hc]; decide)

lemma mqv_ne_curly_r (c : Char) : mapQuoteVariant c ≠ '”' := by
  unfold mapQuoteVariant
  split_ifs with h
  · decide
  · intro hc
    exact h (by rw [hc]; decide)

lemma mqv_ne_curly_l (c : Char) : mapQuoteVariant c ≠ '“' := by
  unfold mapQuoteVariant
  split_ifs with h
  · decide
  · intro hc
    exact h (by rw [hc]; decide)

lemma mqv_id_of {c : Char} (h1 : c ≠ '"') (h2 : c ≠ '”') (h3 : c ≠ '“') (h4 : c ≠ '″') :
    mapQuoteVariant c = c := by
  unfold mapQuoteVariant
  rw [if_neg (by simp [h1, h2, h3, h4])]

lemma mqv_eq_quote {c : Char} (h : mapQuoteVariant c = '"') :
    c = '"' ∨ c = '”' ∨ c = '“' ∨ c = '″' := by
  by_contra hcon
  push_neg at hcon
  rw [mqv_id_of hcon.1 hcon.2.1 hcon.2.2.1 hcon.2.2.2] at h
  exact hcon.1 h

lemma qg_ws {c : Char} (h : isPySpace (if c = '"' then '″' else c) = true) :
    isPySpace c = true ∧ (if c = '"' then '″' else c) = c := by
  split_ifs at h ⊢ with hc
  · exact absurd h (by decide)
  · exact ⟨h, rfl⟩

lemma qg_nws {c : Char} (h : isPySpace c = false) :
    isPySpace (if c = '"' then '″' else c) = false := by
  split_ifs with hc
  · decide
  · exact h

lemma mapAllQuote_cons (c : Char) (l : Str) :
    mapAllQuote (c :: l) = (if c = '"' then '″' else c) :: mapAllQuote l := rfl

/-- The digit-sensitive inch substitution is invisible after the final
unconditional quote replacement: both rewrite `"` to `″`. -/
lemma mapAllQuote_inchDigitAux : ∀ (p : Option Char) (l : Str),
    mapAllQuote (inchDigitAux p l) = mapAllQuote l := by
  intro p l
  induction l generalizing p with
  | nil => rfl
  | cons c cs ih =>
    cases p with
    | none =>
      have hstep : inchDigitAux none (c :: cs) = c :: inchDigitAux (some c) cs := by
        have h0 : inchDigitAux none (c :: cs) =
            (if c = '"' && false then '″' else c) :: inchDigitAux (some c) cs := rfl
        rw [h0, Bool.and_false, if_neg (by simp)]
      rw [hstep, mapAllQuote_cons, mapAllQuote_cons, ih (some c)]
    | some q =>
      have h0 : inchDigitAux (some q) (c :: cs) =
          (if c = '"' && q.isDigit then '″' else c) :: inchDigitAux (some c) cs := rfl
      rw [h0, mapAllQuote_cons, mapAllQuote_cons, ih (some c)]
      congr 1
      by_cases hb : (c = '"' && q.isDigit) = true
      · have hc : c = '"' := by
          simp only [Bool.and_eq_true, decide_eq_true_eq] at hb
          exact hb.1
        rw [if_pos hb, if_pos hc, if_neg (by decide)]
      · rw [if_neg hb]

/-- When no whitespace run is immediately followed by a quote, the
space-before-quote substitution only flushes its pending run. -/
lemma ssqAux_flush : ∀ {l : Str} (pend : Str), noWsQuote l →
    (∀ y ys, l = y :: ys → pend ≠ [] → y ≠ '"') →
    ssqAux pend l = pend.reverse ++ l := by
  intro l
  induction l with
  | nil =>
    intro pend _ _
    rw [ssqAux, List.append_nil]
  | cons c cs ih =>
    intro pend hq hside
    by_cases hc : isPySpace c = true
    · have hside2 : ∀ y ys, cs = y :: ys → (c :: pend) ≠ [] → y ≠ '"' := by
        intro y ys hcs _ hy
        rw [hcs] at hq
        exact hq.1 ⟨hc, hy⟩
      rw [ssqAux, if_pos hc, ih (c :: pend) (pairOK_tail hq) hside2,
        List.reverse_cons, List.append_assoc, List.singleton_append]
    · by_cases hc2 : c = '"'
      · have hp0 : pend = [] := by
          by_contra hne
          exact hside c cs rfl hne hc2
        subst hp0
        rw [ssqAux, if_neg hc, if_pos hc2,
          ih [] (pairOK_tail hq) (fun y ys h1 hne => absurd rfl hne)]
        simp [hc2]
      · rw [ssqAux, if_neg hc, if_neg hc2,
          ih [] (pairOK_tail hq) (fun y ys h1 hne => absurd rfl hne)]
        simp

lemma subSpaceQuote_id {l : Str} (h : noWsQuote l) : subSpaceQuote l = l := by
  unfold subSpaceQuote
  rw [ssqAux_flush [] h (fun y ys h1 hne => absurd rfl hne)]
  rfl

/-- On a collapse-and-stripped string the space-before-quote substitution
keeps every whitespace invariant and establishes `noWsQuote`. -/
lemma ssq_invariants : ∀ {l : Str} (pend : Str),
    wsPlain l → noTwoWs l → lastNoWs l →
    (pend = [] ∨ pend = [' ']) →
    (pend = [' '] → l ≠ [] ∧ headNoWs l) →
    noTwoWs (ssqAux pend l) ∧ noWsQuote (ssqAux pend l) ∧ lastNoWs (ssqAux pend l) ∧
    (pend = [] → headNoWs l → headNoWs (ssqAux pend l)) := by
  intro l
  induction l with
  | nil =>
    intro pend _ _ _ hp hpl
    rcases hp with rfl | rfl
    · exact ⟨trivial, trivial, trivial, fun _ _ => trivial⟩
    · exact absurd rfl (hpl rfl).1
  | cons c cs ih =>
    intro pend hws h2 hl hp hpl
    by_cases hc : isPySpace c = true
    · rcases hp with rfl | rfl
      · rw [ssqAux, if_pos hc]
        have hceq : c = ' ' := hws c (List.mem_cons_self _ _) hc
        cases cs with
        | nil =>
          exfalso
          have hlast : isPySpace c = false := hl
          simp [hc] at hlast
        | cons y t =>
          have hhcs : headNoWs (y :: t) := by
            cases hy : isPySpace y with
            | false => exact hy
            | true => exact absurd ⟨hc, hy⟩ h2.1
          obtain ⟨hA, hB, hC, _⟩ := ih [c]
            (fun a ha hwa => hws a (List.mem_cons_of_mem _ ha) hwa)
            (pairOK_tail h2) ((lastOkP_cons (by simp)).1 hl)
            (Or.inr (by rw [hceq])) (fun _ => ⟨by simp, hhcs⟩)
          refine ⟨hA, hB, hC, ?_⟩
          intro _ hhead
          have hhead2 : isPySpace c = false := hhead
          simp [hc] at hhead2
      · have hhead : isPySpace c = false := (hpl rfl).2
        simp [hc] at hhead
    · have hlcs : lastNoWs cs := by
        cases cs with
        | nil => trivial
        | cons y t => exact (lastOkP_cons (by simp)).1 hl
      obtain ⟨hA, hB, hC, _⟩ := ih []
        (fun a ha hwa => hws a (List.mem_cons_of_mem _ ha) hwa)
        (pairOK_tail h2) hlcs (Or.inl rfl) (fun h => absurd h (by simp))
      by_cases hc2 : c = '"'
      · rw [ssqAux, if_neg hc, if_pos hc2]
        refine ⟨?_, ?_, ?_, ?_⟩
        · refine pairOK_cons ?_ hA
          intro y t hyt hcon
          exact absurd hcon.1 (by decide)
        · refine pairOK_cons ?_ hB
          intro y t hyt hcon
          exact absurd hcon.1 (by decide)
        · cases hX : ssqAux [] cs with
          | nil => exact (by decide : isPySpace '"' = false)
          | cons y t =>
            rw [hX] at hC
            exact (lastOkP_cons (by simp)).2 hC
        · intro _ _
          exact (by decide : isPySpace '"' = false)
      · rw [ssqAux, if_neg hc, if_neg hc2]
        have hcons2 : noTwoWs (c :: ssqAux [] cs) := by
          refine pairOK_cons ?_ hA
          intro y t hyt hcon
          exact hc hcon.1
        have hconsq : noWsQuote (c :: ssqAux [] cs) := by
          refine pairOK_cons ?_ hB
          intro y t hyt hcon
          exact hc hcon.1
        have hconsl : lastNoWs (c :: ssqAux [] cs) := by
          cases hX : ssqAux [] cs with
          | nil => exact Bool.eq_false_iff.2 hc
          | cons y t =>
            rw [hX] at hC
            exact (lastOkP_cons (by simp)).2 hC
        rcases hp with rfl | rfl
        · refine ⟨hcons2, hconsq, hconsl, ?_⟩
          intro _ _
          exact (Bool.eq_false_iff.2 hc : isPySpace c = false)
        · refine ⟨?_, ?_, ?_, ?_⟩
          · show noTwoWs (' ' :: c :: ssqAux [] cs)
            refine pairOK_cons ?_ hcons2
            intro y t hyt hcon
            rw [List.cons.injEq] at hyt
            rw [← hyt.1] at hcon
            exact hc hcon.2
          · show noWsQuote (' ' :: c :: ssqAux [] cs)
            refine pairOK_cons ?_ hconsq
            intro y t hyt hcon
            rw [List.cons.injEq] at hyt
            rw [← hyt.1] at hcon
            exact hc2 hcon.2
          · show lastNoWs (' ' :: c :: ssqAux [] cs)
            exact (lastOkP_cons (by simp)).2 hconsl
          · intro hpe _
            exact absurd hpe (by simp)

lemma mapNbsp_id_ws {l : Str} (h : wsPlain l) : mapNbsp l = l := by
  unfold mapNbsp
  have hcongr : ∀ c ∈ l, (if c = ' ' then ' ' else c) = id c := by
    intro c hc
    have hne : c ≠ ' ' := by
      rintro rfl
      have hsp := h _ hc (by decide)
      exact absurd hsp (by decide)
    simp [hne]
  rw [List.map_congr_left hcongr, List.map_id]

/-- Space collapsing is the identity once every whitespace character is a
plain space and no two are adjacent. -/
lemma collapseAux_id_inv : ∀ {l : Str}, wsPlain l → noTwoWs l →
    (collapseAux false l = l ∧ (headNoWs l → collapseAux true l = l)) := by
  intro l
  induction l with
  | nil => intro _ _; exact ⟨rfl, fun _ => rfl⟩
  | cons x xs ih =>
    intro hws h2
    obtain ⟨ih1, ih2⟩ := ih (fun c hc => hws c (List.mem_cons_of_mem _ hc)) (pairOK_tail h2)
    by_cases hx : isPySpace x = true
    · have hxsp : x = ' ' := hws x (List.mem_cons_self _ _) hx
      have hhead : headNoWs xs := by
        cases xs with
        | nil => trivial
        | cons y t =>
          cases hy : isPySpace y with
          | false => exact hy
          | true => exact absurd ⟨hx, hy⟩ h2.1
      constructor
      · rw [collapseAux, if_pos hx, if_neg (by simp), ih2 hhead, hxsp]
      · intro hhx
        have hhx2 : isPySpace x = false := hhx
        simp [hx] at hhx2
    · constructor
      · rw [collapseAux, if_neg hx, ih1]
      · intro _
        rw [collapseAux, if_neg hx, ih1]

lemma lstripWs_id_head {l : Str} (h : headNoWs l) : lstripWs l = l := by
  cases l with
  | nil => rfl
  | cons x xs =>
    have hx : isPySpace x = false := h
    simp [lstripWs, List.dropWhile_cons, hx]

lemma rstripWs_id_last : ∀ {l : Str}, lastNoWs l → rstripWs l = l := by
  intro l
  induction l with
  | nil => intro _; rfl
  | cons x xs ih =>
    intro h
    cases xs with
    | nil =>
      have hx : isPySpace x = false := h
      rw [rstripWs, show rstripWs ([] : Str) = [] from rfl]
      simp [hx]
    | cons y t =>
      have hxs : rstripWs (y :: t) = y :: t := ih ((lastOkP_cons (by simp)).1 h)
      rw [rstripWs, hxs]

/-- `normalize_inches` on a collapse-and-stripped string yields every
invariant needed for a second normalization pass to be the identity. -/
lemma normalize_inches_invariants {u : Str}
    (hws : wsPlain u) (h2 : noTwoWs u) (hh : headNoWs u) (hl : lastNoWs u) :
    wsPlain (normalize_inches u) ∧ noTwoWs (normalize_inches u) ∧
    headNoWs (normalize_inches u) ∧ lastNoWs (normalize_inches u) ∧
    noWsGlyph (normalize_inches u) ∧
    (∀ c ∈ normalize_inches u, c ≠ '"' ∧ c ≠ '”' ∧ c ≠ '“') := by
  by_cases hu : u = []
  · subst hu
    rw [normalize_inches, if_pos rfl]
    exact ⟨fun c hc => absurd hc (List.not_mem_nil c), trivial, trivial, trivial, trivial,
      fun c hc => absurd hc (List.not_mem_nil c)⟩
  · rw [normalize_inches, if_neg hu]
    have hm1ws : wsPlain (u.map mapQuoteVariant) := by
      intro c hc hcw
      rcases List.mem_map.1 hc with ⟨a, ha, rfl⟩
      obtain ⟨hwa, heq⟩ := mqv_ws hcw
      rw [heq]
      exact hws a ha hwa
    have hm1two : noTwoWs (u.map mapQuoteVariant) := by
      refine pairOK_map ?_ h2
      intro a b hP hcon
      exact hP ⟨(mqv_ws hcon.1).1, (mqv_ws hcon.2).1⟩
    have hm1h : headNoWs (u.map mapQuoteVariant) :=
      headOkP_map hh (fun c _ hq => mqv_nws hq)
    have hm1l : lastNoWs (u.map mapQuoteVariant) :=
      lastOkP_map hl (fun c _ hq => mqv_nws hq)
    have hm1mem : ∀ c ∈ u.map mapQuoteVariant, c ≠ '″' ∧ c ≠ '”' ∧ c ≠ '“' := by
      intro c hc
      rcases List.mem_map.1 hc with ⟨a, _, rfl⟩
      exact ⟨mqv_ne_glyph a, mqv_ne_curly_r a, mqv_ne_curly_l a⟩
    obtain ⟨hs2, hsq, hsl, hshf⟩ := ssq_invariants [] hm1ws hm1two hm1l (Or.inl rfl)
      (fun h => absurd h (by simp))
    have hshd : headNoWs (ssqAux [] (u.map mapQuoteVariant)) := hshf rfl hm1h
    have hsmem : ∀ c ∈ ssqAux [] (u.map mapQuoteVariant), c ∈ u.map mapQuoteVariant := by
      intro c hc
      rcases ssqAux_subset [] hc with h | h
      · cases h
      · exact h
    have hsws : wsPlain (ssqAux [] (u.map mapQuoteVariant)) :=
      fun c hc hcw => hm1ws c (hsmem c hc) hcw
    rw [show subSpaceQuote (u.map mapQuoteVariant) = ssqAux [] (u.map mapQuoteVariant) from rfl]
    rw [mapAllQuote_inchDigitAux]
    refine ⟨?_, ?_, ?_, ?_, ?_, ?_⟩
    · intro c hc hcw
      rcases List.mem_map.1 hc with ⟨a, ha, rfl⟩
      obtain ⟨hwa, heq⟩ := qg_ws hcw
      show (if a = '"' then '″' else a) = ' '
      rw [heq]
      exact hsws a ha hwa
    · refine pairOK_map ?_ hs2
      intro a b hP hcon
      exact hP ⟨(qg_ws hcon.1).1, (qg_ws hcon.2).1⟩
    · exact headOkP_map hshd (fun c _ hq => qg_nws hq)
    · exact lastOkP_map hsl (fun c _ hq => qg_nws hq)
    · refine pairOK_map_mem hsq ?_
      intro a b ha hb hP hcon
      have hcon1 : isPySpace (if a = '"' then '″' else a) = true := hcon.1
      have hcon2 : (if b = '"' then '″' else b) = '″' := hcon.2
      obtain ⟨hwa, _⟩ := qg_ws hcon1
      have hbq : b = '"' := by
        by_cases hb2 : b = '"'
        · exact hb2
        · exfalso
          rw [if_neg hb2] at hcon2
          exact (hm1mem b (hsmem b hb)).1 hcon2
      exact hP ⟨hwa, hbq⟩
    · intro c hc
      rcases List.mem_map.1 hc with ⟨a, ha, rfl⟩
      obtain ⟨_, har, hal⟩ := hm1mem a (hsmem a ha)
      show (if a = '"' then '″' else a) ≠ '"' ∧ (if a = '"' then '″' else a) ≠ '”' ∧
        (if a = '"' then '″' else a) ≠ '“'
      split_ifs with ha2
      · exact ⟨by decide, by decide, by decide⟩
      · exact ⟨ha2, har, hal⟩

/-- The normalization pass is the identity on any string carrying the
invariants produced by a first pass. -/
lemma normalizeTextStr_id_of_inv {r : Str}
    (hws : wsPlain r) (h2 : noTwoWs r) (hh : headNoWs r) (hl : lastNoWs r)
    (hg : noWsGlyph r) (hq : ∀ c ∈ r, c ≠ '"' ∧ c ≠ '”' ∧ c ≠ '“') :
    normalizeTextStr r = r := by
  unfold normalizeTextStr
  rw [mapNbsp_id_ws hws]
  rw [show collapseSpaces r = r from (collapseAux_id_inv hws h2).1]
  unfold pyStrip
  rw [lstripWs_id_head hh, rstripWs_id_last hl]
  by_cases hr : r = []
  · rw [normalize_inches, if_pos hr]
  · rw [normalize_inches, if_neg hr]
    have hnq : noWsQuote (r.map mapQuoteVariant) := by
      refine pairOK_map_mem hg ?_
      intro a b ha hb hP hcon
      have hcon2 : mapQuoteVariant b = '"' := hcon.2
      obtain ⟨hwa, _⟩ := mqv_ws hcon.1
      rcases mqv_eq_quote hcon2 with hb2 | hb2 | hb2 | hb2
      · exact (hq b hb).1 hb2
      · exact (hq b hb).2.1 hb2
      · exact (hq b hb).2.2 hb2
      · exact hP ⟨hwa, hb2⟩
    rw [show subSpaceQuote (r.map mapQuoteVariant) = ssqAux [] (r.map mapQuoteVariant) from rfl]
    rw [ssqAux_flush [] hnq (fun y ys h1 hne => absurd rfl hne)]
    simp only [List.reverse_nil, List.nil_append]
    rw [mapAllQuote_inchDigitAux]
    unfold mapAllQuote
    rw [List.map_map]
    have hcongr : ∀ c ∈ r, ((fun c => if c = '"' then '″' else c) ∘ mapQuoteVariant) c = id c := by
      intro c hc
      obtain ⟨hq1, hq2, hq3⟩ := hq c hc
      show (if mapQuoteVariant c = '"' then '″' else mapQuoteVariant c) = c
      by_cases hcg : c = '″'
      · rw [hcg]
        decide
      · rw [mqv_id_of hq1 hq2 hq3 hcg, if_neg hq1]
    rw [List.map_congr_left hcongr, List.map_id]

/-- C7: cell normalization is idempotent: normalizing an already
normalized cell — whitespace collapse, non-breaking-space replacement,
stripping, and inch-mark unification included — returns it unchanged. -/
theorem C7_normalize_idempotent (o : Option Str) :
    normalize_text (some (normalize_text o)) = normalize_text o := by
  have key : ∀ s : Str, normalizeTextStr (normalizeTextStr s) = normalizeTextStr s := by
    intro s
    obtain ⟨hws, h2, hh, hl⟩ := stripped_invariants s
    obtain ⟨h1, h2b, h3, h4, h5, h6⟩ := normalize_inches_invariants hws h2 hh hl
    exact normalizeTextStr_id_of_inv h1 h2b h3 h4 h5 h6
  cases o with
  | none => rfl
  | some s => exact key s
